import Mathlib

/-
Shallow embedding of `scripts/template_checker/template_checker.py`.

Lines of text are modelled as `List Char`.  Every definition below is a
direct translation of a function (or of one `re.sub` call) of the source
file; regular expressions are translated to their deterministic matching
behaviour, which for the eight anchored patterns of the source admits a
first-principles derivation (greedy character classes are pairwise
disjoint at each decision point, so backtracking never changes the
result).  The embedding treats a "line" as free of interior newline
characters, which is exactly the shape produced by `f.readlines()`:
each element carries at most one `'\n'`, at its end, and `str.strip`
removes it before any regex is applied.
-/

set_option maxRecDepth 10000

/-- Characters stripped by Python `str.strip()` / matched by regex `\s`
(ASCII range, which covers every character the script can meet in the
guards it applies them to). -/
def isPySpace (c : Char) : Bool :=
  c = ' ' || c = '\t' || c = '\n' || c = '\r' || c = '\x0b' || c = '\x0c'

/-- The character class `[A-Z0-9_]` of the environment-assignment rule. -/
def isEnvKeyChar (c : Char) : Bool :=
  ('A' ≤ c && c ≤ 'Z') || ('0' ≤ c && c ≤ '9') || c = '_'

/-- The character class `[a-zA-Z0-9_]` of the JSON/YAML key rules. -/
def isJsonKeyChar (c : Char) : Bool :=
  ('a' ≤ c && c ≤ 'z') || ('A' ≤ c && c ≤ 'Z') || ('0' ≤ c && c ≤ '9') || c = '_'

/-- The character class `\d` (ASCII digits). -/
def isDigitChar (c : Char) : Bool := '0' ≤ c && c ≤ '9'

/-- Left part of Python `str.strip()`. -/
def lstrip (l : List Char) : List Char := l.dropWhile isPySpace

/-- Python `str.rstrip()`: remove trailing whitespace. -/
def rstrip : List Char → List Char
  | [] => []
  | c :: t =>
    let r := rstrip t
    if r.isEmpty then (if isPySpace c then [] else [c]) else c :: r

/-- Python `str.strip()`: remove leading and trailing whitespace. -/
def strip (l : List Char) : List Char := rstrip (lstrip l)

/-- The placeholder `<VALUE>`. -/
def valuePH : List Char := "<VALUE>".toList

/-- The placeholder `<SECRET>`. -/
def secretPH : List Char := "<SECRET>".toList

/-- The placeholder `<KEY>`. -/
def keyPH : List Char := "<KEY>".toList

/-- The placeholder `<TOKEN>`. -/
def tokenPH : List Char := "<TOKEN>".toList

/-- The placeholder `<PASSWORD>`. -/
def passwordPH : List Char := "<PASSWORD>".toList

/-- The placeholder `<NUMBER>`. -/
def numberPH : List Char := "<NUMBER>".toList

/-- The marker `_SECRET=`. -/
def mSECRET : List Char := "_SECRET=".toList

/-- The marker `_KEY=`. -/
def mKEY : List Char := "_KEY=".toList

/-- The marker `_TOKEN=`. -/
def mTOKEN : List Char := "_TOKEN=".toList

/-- The marker `_PASSWORD=`. -/
def mPASSWORD : List Char := "_PASSWORD=".toList

/-- `re.sub(r'^([A-Z0-9_]+)=.*$', r'\1=<VALUE>', line)`: if the line starts
with a nonempty run of `[A-Z0-9_]` immediately followed by `=`, the whole
line is rewritten to that key followed by `=<VALUE>`; otherwise the line is
unchanged. -/
def subEnv (l : List Char) : List Char :=
  let k := l.takeWhile isEnvKeyChar
  match l.dropWhile isEnvKeyChar with
  | '=' :: _ => if k.isEmpty then l else k ++ '=' :: valuePH
  | _ => l

/-- End positions `j` such that `pat` is a suffix of `l.take j`, i.e. the
positions just after each occurrence of `pat` in `l`, in increasing order. -/
def occEnds (pat l : List Char) : List Nat :=
  (List.range (l.length + 1)).filter (fun j => pat.isSuffixOf (l.take j))

/-- `re.sub(r'^(.*PAT).*$', r'\1PH', line)` for a literal `PAT`: the greedy
`.*` makes the group end at the LAST occurrence of `PAT`; everything after
it is replaced by `PH`.  When `PAT` does not occur, the line is unchanged. -/
def subTail (pat ph l : List Char) : List Char :=
  match (occEnds pat l).getLast? with
  | some j => l.take j ++ ph
  | none => l

/-- The group `(^\s*"?[a-zA-Z0-9_]+"?\s*:\s*)` shared by the two JSON/YAML
rules: returns the matched group together with the rest of the line, or
`none` when the group does not match at the start of the line.  At every
decision point of the regex the relevant character classes are disjoint,
so the greedy match is the unique one. -/
def parseJsonG1 (l : List Char) : Option (List Char × List Char) :=
  let w1 := l.takeWhile isPySpace
  let r1 := l.dropWhile isPySpace
  let q1 : List Char := match r1 with | '"' :: _ => ['"'] | _ => []
  let r2 : List Char := match r1 with | '"' :: t => t | _ => r1
  let k := r2.takeWhile isJsonKeyChar
  let r3 := r2.dropWhile isJsonKeyChar
  if k.isEmpty then none else
  let q2 : List Char := match r3 with | '"' :: _ => ['"'] | _ => []
  let r4 : List Char := match r3 with | '"' :: t => t | _ => r3
  let w2 := r4.takeWhile isPySpace
  let r5 := r4.dropWhile isPySpace
  match r5 with
  | ':' :: r6 =>
    let w3 := r6.takeWhile isPySpace
    let r7 := r6.dropWhile isPySpace
    some (w1 ++ q1 ++ k ++ q2 ++ w2 ++ ':' :: w3, r7)
  | _ => none

/-- `re.sub(r'(^\s*"?[a-zA-Z0-9_]+"?\s*:\s*)"[^"]*"', r'\1"<VALUE>"', line)`:
after the key group, a quoted value (up to the first closing quote) is
replaced by `"<VALUE>"`; the rest of the line is preserved. -/
def subJsonStr (l : List Char) : List Char :=
  match parseJsonG1 l with
  | some (g1, rest) =>
    match rest with
    | '"' :: r =>
      match r.dropWhile (fun c => c != '"') with
      | '"' :: tail => g1 ++ '"' :: valuePH ++ '"' :: tail
      | _ => l
    | _ => l
  | none => l

/-- `re.sub(r'(^\s*"?[a-zA-Z0-9_]+"?\s*:\s*)\d+', r'\1<NUMBER>', line)`:
after the key group, a nonempty digit run is replaced by `<NUMBER>`; the
rest of the line is preserved. -/
def subJsonNum (l : List Char) : List Char :=
  match parseJsonG1 l with
  | some (g1, rest) =>
    let d := rest.takeWhile isDigitChar
    if d.isEmpty then l else g1 ++ numberPH ++ rest.dropWhile isDigitChar
  | none => l

/-- `re.sub(r'(^\s*-\s*"[^"]*=)[^"]*"$', r'\1<VALUE>"', line)`: a
docker-compose list item `- "...=..."` ending the line with `"`; the part
after the LAST `=` of the quote-free content is replaced by `<VALUE>`. -/
def subDocker (l : List Char) : List Char :=
  let w1 := l.takeWhile isPySpace
  match l.dropWhile isPySpace with
  | '-' :: r2 =>
    let w2 := r2.takeWhile isPySpace
    match r2.dropWhile isPySpace with
    | '"' :: r4 =>
      match r4.getLast? with
      | some '"' =>
        let s := r4.dropLast
        if s.contains '"' || !(s.contains '=') then l
        else
          match s.reverse.dropWhile (fun c => c != '=') with
          | '=' :: s1rev => w1 ++ '-' :: w2 ++ '"' :: s1rev.reverse ++ '=' :: valuePH ++ ['"']
          | _ => l
      | _ => l
    | _ => l
  | _ => l

/-- `TemplateChecker.normalize_line`: strip, then the eight substitutions in
source order. -/
def normalize_line (l : List Char) : List Char :=
  subDocker (subJsonNum (subJsonStr
    (subTail mPASSWORD passwordPH (subTail mTOKEN tokenPH (subTail mKEY keyPH
      (subTail mSECRET secretPH (subEnv (strip l))))))))

example : normalize_line ( "PORT=8080".toList) = ( "PORT=<VALUE>".toList) := by decide
example : normalize_line ( "DB_PASSWORD=s3cr3t".toList) = ( "DB_PASSWORD=<PASSWORD>".toList) := by decide
example : normalize_line ( "DB_PASSWORD=placeholder".toList) = ( "DB_PASSWORD=<PASSWORD>".toList) := by decide
example : normalize_line ( "API_KEY=abc123".toList) = ( "API_KEY=<KEY>".toList) := by decide
example : normalize_line ( "  \"host\": \"localhost\"  ".toList) = ( "\"host\": \"<VALUE>\"".toList) := by decide
example : normalize_line ( "port: 5432".toList) = ( "port: <NUMBER>".toList) := by decide
example : normalize_line ( "- \"KEY=value\"".toList) = ( "- \"KEY=<VALUE>\"".toList) := by decide
example : normalize_line ( "a_SECRET=b_KEY=c_SECRET=d".toList) = ( "a_SECRET=b_KEY=<KEY>".toList) := by decide
example : normalize_line ( "a_SECRET=b_KEY=<KEY>".toList) = ( "a_SECRET=<SECRET>".toList) := by decide
example : normalize_line ( "k: \"a\" x_TOKEN=b".toList) = ( "k: \"<VALUE>\" x_TOKEN=<TOKEN>".toList) := by decide

/-- The filter of `find_missing_lines`: a line takes part in the comparison
iff its stripped form is nonempty and does not start with `#`. -/
def keepLine (l : List Char) : Bool :=
  match strip l with
  | [] => false
  | c :: _ => c != '#'

/-- The loop `for i, line in enumerate(normalized_parent_lines): ...` of
`find_missing_lines`: `i` indexes the (filtered) normalized list, while the
reported text is fetched from the UNFILTERED `parent_lines` at that same
index. -/
def missingLoop (ntl parent_lines : List (List Char)) :
    Nat → List (List Char) → List (List Char)
  | _, [] => []
  | i, x :: xs =>
    if x ∈ ntl then missingLoop ntl parent_lines (i+1) xs
    else if h : i < parent_lines.length then
      rstrip (parent_lines.get ⟨i, h⟩) :: missingLoop ntl parent_lines (i+1) xs
    else missingLoop ntl parent_lines (i+1) xs

/-- `TemplateChecker.find_missing_lines`, comparison core (lines 203-228 of
the source): filter out blank/comment lines, normalize, and report the
rstripped `parent_lines[i]` for each index `i` of the filtered normalized
parent list whose entry is not among the normalized template lines. -/
def find_missing_lines (template_lines parent_lines : List (List Char)) : List (List Char) :=
  let ntl := (template_lines.filter keepLine).map normalize_line
  let npl := (parent_lines.filter keepLine).map normalize_line
  missingLoop ntl parent_lines 0 npl

/-- Glob matching as performed by `fnmatch.fnmatch` on POSIX for patterns
built from literal characters and `*` (the only constructs appearing in the
script's patterns): `*` matches any sequence of characters, including `/`. -/
def globMatch : List Char → List Char → Bool
  | [], s => s.isEmpty
  | '*' :: ps, s => (List.range (s.length + 1)).any (fun k => globMatch ps (s.drop k))
  | _ :: _, [] => false
  | c :: ps, d :: s => c == d && globMatch ps s

/-- `TEMPLATE_PATTERNS` of the source. -/
def TEMPLATE_PATTERNS : List (List Char) :=
  [ "*.template.*".toList, "*.template".toList, "*.env.template".toList,
    "*/*.template.*".toList, "*/*.template".toList, "*/*.env.template".toList]

/-- The module-level default value of `EXCLUDE_PATTERNS`. -/
def EXCLUDE_PATTERNS_default : List (List Char) :=
  [ "**/config.template.js".toList,
    "**/mirotalk/app/src/config.template.js".toList,
    "**/mirotalk_backup/app/src/config.template.js".toList,
    "**/.git*/**".toList]

/-- `TemplateChecker.is_excluded_file`, with the global `EXCLUDE_PATTERNS`
read at call time passed explicitly. -/
def is_excluded_file (patterns : List (List Char)) (file_path : List Char) : Bool :=
  patterns.any (fun pat => globMatch pat file_path)

/-- `os.path.relpath(os.path.join(root, filename), base_dir)` for a walk
entry whose directory lies at relative path `dir` below the base. -/
def joinRel (dir fn : List Char) : List Char := if dir.isEmpty then fn else dir ++ '/' :: fn

/-- `TemplateChecker.find_template_files`: the `os.walk` traversal is
abstracted as a list of (relative directory, filenames) entries; per entry
the source iterates the inclusion patterns in order, keeps the filenames
matching each, and drops excluded relative paths. -/
def find_template_files (patterns : List (List Char))
    (walk : List (List Char × List (List Char))) : List (List Char) :=
  walk.flatMap (fun rf => TEMPLATE_PATTERNS.flatMap (fun pat =>
    (rf.2.filter (fun fn => globMatch pat fn)).filterMap (fun fn =>
      let rel := joinRel rf.1 fn
      if is_excluded_file patterns rel then none else some rel)))

/-- The `--exclude` handling in `main`: each given pattern is appended to
the (global) current pattern list; absent `--exclude` leaves it alone. -/
def main_extend_excludes (current : List (List Char))
    (extra : Option (List (List Char))) : List (List Char) :=
  match extra with
  | some ps => current ++ ps
  | none => current

/-- The suffix `.template` (9 characters). -/
def tmplSuffix : List Char := ".template".toList

/-- The suffix `.env`. -/
def envSuffix : List Char := ".env".toList

/-- The suffix `.env.template` (13 characters). -/
def envTmplSuffix : List Char := ".env.template".toList

/-- `re.match(r'^(.+)\.template(\..+)$', t)` followed by building
`group(1) + group(2)`: the greedy `(.+)` selects the LAST position where
`.template` is followed by `.` plus at least one more character reaching
the end; `none` when the pattern does not match. -/
def match1 (t : List Char) : Option (List Char) :=
  let js := (List.range (t.length + 1)).filter (fun j =>
    tmplSuffix.isSuffixOf (t.take j) && decide (10 ≤ j) &&
      (match t.drop j with | '.' :: _ :: _ => true | _ => false))
  match js.getLast? with
  | some j => some (t.take (j - 9) ++ t.drop j)
  | none => none

/-- `re.match(r'^(.+)\.template$', t)` followed by `group(1)`. -/
def match2 (t : List Char) : Option (List Char) :=
  if tmplSuffix.isSuffixOf t && decide (10 ≤ t.length) then some (t.take (t.length - 9)) else none

/-- `re.match(r'^(.+)\.env\.template$', t)` followed by `group(1) + ".env"`. -/
def match3 (t : List Char) : Option (List Char) :=
  if envTmplSuffix.isSuffixOf t && decide (14 ≤ t.length) then
    some (t.take (t.length - 13) ++ envSuffix)
  else none

/-- The filesystem facts consulted by the script, on paths relative to the
base directory: `os.path.exists` and `os.path.isfile`. -/
structure FS where
  pexists : List Char → Bool
  isFile : List Char → Bool

/-- The body of the `for template_file in self.template_files` loop of
`find_parent_files`, up to the final `isfile` check: each of the three
patterns is tried in order, and `parent_file` is set to the first derived
path that EXISTS (regular file or not); later patterns are only consulted
while `parent_file` is still unset. -/
def resolve_parent (fs : FS) (t : List Char) : Option (List Char) :=
  let p1 : Option (List Char) :=
    match match1 t with
    | some p => if fs.pexists p then some p else none
    | none => none
  let p2 : Option (List Char) :=
    match p1 with
    | some p => some p
    | none =>
      match match2 t with
      | some p => if fs.pexists p then some p else none
      | none => none
  match p2 with
  | some p => some p
  | none =>
    match match3 t with
    | some p => if fs.pexists p then some p else none
    | none => none

/-- Completion of the loop body of `find_parent_files`: when a candidate
was resolved, it becomes a mapping entry only if `os.path.isfile` holds of
it; otherwise a warning is printed and NO other rule is attempted. -/
def find_parent_entry (fs : FS) (t : List Char) : Option (List Char) :=
  match resolve_parent fs t with
  | some p => if fs.isFile p then some p else none
  | none => none

/-- `TemplateChecker.find_parent_files` over the whole template list. -/
def find_parent_files (fs : FS) (templates : List (List Char)) :
    List (List Char × List Char) :=
  templates.filterMap (fun t => (find_parent_entry fs t).map (fun p => (t, p)))

/-- Diagnostics printed by `find_missing_lines` on its early-return paths. -/
inductive RunDiag
  | templateNotFile (t : List Char)
  | parentNotFile (p : List Char)
  | compareFailed (t p e : List Char)
deriving DecidableEq

/-- `TemplateChecker.find_missing_lines` in full (lines 182-231): the two
`isfile` re-checks, then the `try` block; a raised error while opening or
reading either file is caught and turned into a printed diagnostic plus an
empty missing-line list.  File reads are modelled as `Except` values. -/
def find_missing_lines_checked (fs : FS)
    (readFile : List Char → Except (List Char) (List (List Char)))
    (t p : List Char) : List (List Char) × List RunDiag :=
  if fs.isFile t = false then ([], [RunDiag.templateNotFile t])
  else if fs.isFile p = false then ([], [RunDiag.parentNotFile p])
  else
    match readFile t with
    | Except.error e => ([], [RunDiag.compareFailed t p e])
    | Except.ok tl =>
      match readFile p with
      | Except.error e => ([], [RunDiag.compareFailed t p e])
      | Except.ok pl => (find_missing_lines tl pl, [])

/-- `TemplateChecker.analyze_all_files`: run the comparison on every
matched pair, recording only pairs with a nonempty missing-line list. -/
def analyze_all_files (fs : FS)
    (readFile : List Char → Except (List Char) (List (List Char)))
    (parent_files : List (List Char × List Char)) :
    List (List Char × List (List Char)) :=
  parent_files.filterMap (fun tp =>
    let r := find_missing_lines_checked fs readFile tp.1 tp.2
    if r.1.isEmpty then none else some (tp.1, r.1))

/-- The in-section line of `generate_report` behind `if not missing_lines:`. -/
def no_missing_line : List Char := "No missing content found.".toList

/-- One `### template` section of the report, as `generate_report` builds it. -/
def report_section (t p : List Char) (ml : List (List Char)) : List (List Char) :=
  ( "### ".toList ++ t) :: ( "*Compared to: ".toList ++ p ++ "*".toList) :: ([] : List Char) ::
    ((if ml.isEmpty then [no_missing_line]
      else "Missing lines that should be added to the template:".toList ::
        "```".toList :: (ml ++ [ "```".toList])) ++ [([] : List Char)])

/-- The shape `report_section` takes when its missing-line list is
nonempty, written out without the `if`: used to state that the
`No missing content found.` branch is never taken. -/
def report_section_nonempty (t p : List Char) (ml : List (List Char)) : List (List Char) :=
  ( "### ".toList ++ t) :: ( "*Compared to: ".toList ++ p ++ "*".toList) :: ([] : List Char) ::
    "Missing lines that should be added to the template:".toList ::
    "```".toList :: (ml ++ [ "```".toList, ([] : List Char)])

/-- Decimal rendering of a count, as interpolated by the f-strings. -/
def natStr (n : Nat) : List Char := (Nat.repr n).toList

/-- The header lines of the report. -/
def report_header (timestamp base_dir : List Char) (nT nP nD : Nat) : List (List Char) :=
  [ "# Template File Missing Content Report".toList, [],
    "Generated: ".toList ++ timestamp, [],
    "Base directory: ".toList ++ base_dir,
    "Template files found: ".toList ++ natStr nT,
    "Parent files matched: ".toList ++ natStr nP,
    "Files with missing content: ".toList ++ natStr nD, [] ]

/-- The `for template_file, missing_lines in self.differences.items()` loop
of `generate_report`: one section per difference entry, looked up in the
parent map; the subscript `self.parent_files[template_file]` raises
`KeyError` when absent, modelled as `Except.error`. -/
def report_sections (parent_files : List (List Char × List Char)) :
    List (List Char × List (List Char)) → Except Unit (List (List (List Char)))
  | [] => Except.ok []
  | td :: tds =>
    match List.lookup td.1 parent_files with
    | some p =>
      match report_sections parent_files tds with
      | Except.ok secs => Except.ok (report_section td.1 p td.2 :: secs)
      | Except.error e => Except.error e
    | none => Except.error ()

/-- `TemplateChecker.generate_report`, as the list of report lines (the
source joins them with newlines at the end). -/
def generate_report (timestamp base_dir : List Char) (template_files : List (List Char))
    (parent_files : List (List Char × List Char))
    (differences : List (List Char × List (List Char))) : Except Unit (List (List Char)) :=
  let hdr := report_header timestamp base_dir template_files.length parent_files.length
    differences.length
  if differences.isEmpty then
    Except.ok (hdr ++ [ "## Summary".toList, [],
      "No missing content found in template files compared to their parent files.".toList])
  else
    match report_sections parent_files differences with
    | Except.ok secs => Except.ok (hdr ++ [ "## Missing Content".toList, []] ++ secs.flatten)
    | Except.error e => Except.error e

example : globMatch ( "*.template".toList) ( "x.env.template".toList) = true := by decide
example : globMatch ( "*.env.template".toList) ( "x.env.template".toList) = true := by decide
example : globMatch ( "*.template.*".toList) ( "x.env.template".toList) = false := by decide
example : globMatch ( "**/config.template.js".toList) ( "sub/config.template.js".toList) = true := by decide
example : globMatch ( "**/.git*/**".toList) ( "a/.git/x.template".toList) = true := by decide

/-- Template lines for the C1 failing input. -/
def c1_template_lines : List (List Char) := [ "PORT=xxxx\n".toList]

/-- Parent lines for the C1 failing input: a comment line comes first, so
the filtered (normalized) index `1` of the structurally missing line
`NEW_FEATURE_FLAG=true` points at `PORT=8080` in the unfiltered list. -/
def c1_parent_lines : List (List Char) :=
  [ "# comment\n".toList, "PORT=8080\n".toList, "NEW_FEATURE_FLAG=true\n".toList]

/-- Claim C1, evaluated at the failing input: the line flagged as missing is
the one whose normalized form `NEW_FEATURE_FLAG=<VALUE>` is absent from the
template, but the list returned by the code is `["PORT=8080"]` — the rstrip
of a DIFFERENT parent line (whose normalized form is even present in the
template) — because the index into the filtered normalized list is used to
subscript the unfiltered parent line list. -/
theorem C1_divergence :
    find_missing_lines c1_template_lines c1_parent_lines = [ "PORT=8080".toList] := by decide

/-- Claim C3, evaluated at the failing sequence of runs: after a first run
in the same process passed `--exclude custom_pattern`, the global pattern
list seen by a second run without `--exclude` is no longer the default
list — `main` mutates the module-level `EXCLUDE_PATTERNS` in place. -/
theorem C3_global_mutation :
    main_extend_excludes
        (main_extend_excludes EXCLUDE_PATTERNS_default (some [ "custom_pattern".toList])) none
      ≠ EXCLUDE_PATTERNS_default := by decide

/-- The line on which normalization fails to be idempotent. -/
def c5_line : List Char := "a_SECRET=b_KEY=c_SECRET=d".toList

/-- Claim C5, counterexample: `a_SECRET=b_KEY=c_SECRET=d` normalizes to
`a_SECRET=b_KEY=<KEY>` (the `_SECRET=` rule consumes up to the LAST
`_SECRET=`, then the `_KEY=` rule re-truncates before it), and a second
normalization gives `a_SECRET=<SECRET>`. -/
theorem C5_counterexample :
    normalize_line (normalize_line c5_line) ≠ normalize_line c5_line := by decide

/-- The template path of the C2 counterexample; it is matched by pattern 1
(deriving `a.b.template`) and by pattern 2 (deriving `a.template.b`). -/
def c2_template : List Char := "a.template.b.template".toList

/-- Derived parent of rule 1 on `c2_template`; a directory on `c2_fs`. -/
def c2_parent1 : List Char := "a.b.template".toList

/-- Derived parent of rule 2 on `c2_template`; a regular file on `c2_fs`. -/
def c2_parent2 : List Char := "a.template.b".toList

/-- Filesystem for the C2 counterexample: both derived paths exist, only
the rule-2 one is a regular file. -/
def c2_fs : FS :=
  { pexists := fun p => p == c2_parent1 || p == c2_parent2,
    isFile := fun p => p == c2_parent2 }

/-- Claim C2, counterexample: rule 2 derives an existing regular file, yet
no mapping is created, because rule 1's derived path exists (as a
directory), wins the existence race, and the single `isfile` check that
follows rejects it without ever trying rule 2. -/
theorem C2_counterexample :
    match1 c2_template = some c2_parent1 ∧
    match2 c2_template = some c2_parent2 ∧
    c2_fs.pexists c2_parent2 = true ∧
    c2_fs.isFile c2_parent2 = true ∧
    find_parent_entry c2_fs c2_template = none := by decide

/-- Claim C2, amended: resolution tries the three naming rules in the fixed
order and selects as candidate the one derived by the FIRST rule whose
derived path exists at all (regular file or not); once some rule's derived
path exists, later rules are not attempted; a mapping is then created
exactly when that candidate passes the single `isfile` check. -/
theorem C2_amended (fs : FS) (t : List Char) :
    find_parent_entry fs t =
      (([match1 t, match2 t, match3 t].filterMap id).find? fs.pexists).bind
        (fun p => if fs.isFile p then some p else none) := by
  unfold find_parent_entry resolve_parent
  cases h1 : match1 t <;> cases h2 : match2 t <;> cases h3 : match3 t <;>
    simp only [List.filterMap_cons, List.filterMap_nil, id_eq, List.find?] <;>
    repeat' split
  all_goals first
    | rfl
    | simp_all

/-- The loop of `find_missing_lines` returns an empty list precisely when
every entry of the filtered, normalized parent list appears among the
normalized template lines — provided the index guard always holds, which
the caller guarantees because the filtered list is no longer than the
unfiltered one. -/
theorem missingLoop_eq_nil_iff (ntl parent_lines : List (List Char)) :
    ∀ (xs : List (List Char)) (i : Nat), i + xs.length ≤ parent_lines.length →
      (missingLoop ntl parent_lines i xs = [] ↔ ∀ x ∈ xs, x ∈ ntl) := by
  intro xs
  induction xs with
  | nil => intro i _; simp [missingLoop]
  | cons x xs ih =>
    intro i h
    have hlen : (x :: xs).length = xs.length + 1 := rfl
    have hi : i < parent_lines.length := by rw [hlen] at h; omega
    by_cases hx : x ∈ ntl
    · have hrec := ih (i+1) (by rw [hlen] at h; omega)
      simp [missingLoop, hx, hrec]
    · simp [missingLoop, hx, hi]

/-- Claim C6: the comparison is unordered set membership on normalized
lines.  (1) If parent and template have the same SET of kept normalized
lines, the missing-line list is empty.  (2) The missing-line list is empty
iff every kept parent line's normalized form occurs among the template's
normalized lines anywhere in the file — so an entry is produced for a
parent line only when no template line shares its normalized form. -/
theorem C6_unordered_set_comparison (tl pl : List (List Char)) :
    (((pl.filter keepLine).map normalize_line).toFinset =
        ((tl.filter keepLine).map normalize_line).toFinset →
      find_missing_lines tl pl = [])
    ∧ (find_missing_lines tl pl = [] ↔
        ∀ x ∈ (pl.filter keepLine).map normalize_line,
          x ∈ (tl.filter keepLine).map normalize_line) := by
  have hlen : ((pl.filter keepLine).map normalize_line).length ≤ pl.length := by
    rw [List.length_map]
    exact List.length_filter_le _ _
  have hiff := missingLoop_eq_nil_iff ((tl.filter keepLine).map normalize_line) pl
      ((pl.filter keepLine).map normalize_line) 0 (by omega)
  constructor
  · intro hset
    unfold find_missing_lines
    exact hiff.2 (fun x hx => List.mem_toFinset.1 (hset ▸ List.mem_toFinset.2 hx))
  · exact hiff

/-- Witness for C6 at a concrete input: same structural lines, different
order and different values, no missing lines. -/
theorem C6_witness :
    find_missing_lines [ "B=2\n".toList, "A=1\n".toList]
      [ "A=5\n".toList, "B=9\n".toList] = [] :=
  (C6_unordered_set_comparison [ "B=2\n".toList, "A=1\n".toList]
    [ "A=5\n".toList, "B=9\n".toList]).1 (by decide)

/-- Claim C7: exclusion dominates inclusion — a relative path matching any
exclusion pattern never appears among the discovered template files,
whatever the walk contents (so in particular even when its filename also
matches an inclusion pattern). -/
theorem C7_exclusion_dominates (patterns : List (List Char))
    (walk : List (List Char × List (List Char))) (P : List Char)
    (hex : is_excluded_file patterns P = true) :
    P ∉ find_template_files patterns walk := by
  intro hmem
  unfold find_template_files at hmem
  rcases List.mem_flatMap.1 hmem with ⟨rf, _, hm1⟩
  rcases List.mem_flatMap.1 hm1 with ⟨pat, _, hm2⟩
  rcases List.mem_filterMap.1 hm2 with ⟨fn, _, hsome⟩
  by_cases h : is_excluded_file patterns (joinRel rf.1 fn)
  · simp [h] at hsome
  · simp [h] at hsome
    exact h (hsome ▸ hex)

/-- Walk for the C7 witness: `sub/config.template.js` matches the
inclusion pattern `*.template.*` but also the exclusion pattern
`**/config.template.js`. -/
def c7_walk : List (List Char × List (List Char)) :=
  [( "sub".toList, [ "config.template.js".toList])]

/-- The excluded path of the C7 witness. -/
def c7_path : List Char := "sub/config.template.js".toList

/-- Witness for C7: the excluded path is matched by an inclusion pattern,
is matched by an exclusion pattern, and is not discovered. -/
theorem C7_witness :
    globMatch ( "*.template.*".toList) ( "config.template.js".toList) = true ∧
    is_excluded_file EXCLUDE_PATTERNS_default c7_path = true ∧
    c7_path ∉ find_template_files EXCLUDE_PATTERNS_default c7_walk :=
  ⟨by decide, by decide,
    C7_exclusion_dominates EXCLUDE_PATTERNS_default c7_walk c7_path (by decide)⟩

/-- Counting occurrences in a flat-map of conditional singletons counts
the satisfied conditions. -/
theorem count_flatMap_singleton {α : Type} (pats : List α) (c : α → Bool) (r : List Char) :
    (pats.flatMap (fun p => if c p then [r] else [])).count r = (pats.filter c).length := by
  induction pats with
  | nil => simp
  | cons p ps ih =>
    by_cases h : c p <;> simp [h, ih, List.count_cons]

/-- Claim C10: discovery appends a (non-excluded) file once per inclusion
pattern its filename matches; concretely, `x.env.template` matches both
`*.template` and `*.env.template` and is listed twice. -/
theorem C10_per_pattern_duplicates :
    (∀ (dir fn : List Char) (patterns : List (List Char)),
        is_excluded_file patterns (joinRel dir fn) = false →
        (find_template_files patterns [(dir, [fn])]).count (joinRel dir fn) =
          (TEMPLATE_PATTERNS.filter (fun pat => globMatch pat fn)).length)
    ∧ find_template_files [] [([], [ "x.env.template".toList])] =
        [ "x.env.template".toList, "x.env.template".toList] := by
  constructor
  · intro dir fn patterns hex
    have hstep : find_template_files patterns [(dir, [fn])] =
        TEMPLATE_PATTERNS.flatMap (fun pat =>
          if globMatch pat fn then [joinRel dir fn] else []) := by
      unfold find_template_files
      simp only [List.flatMap_cons, List.flatMap_nil, List.append_nil]
      congr 1
      funext pat
      by_cases h : globMatch pat fn <;> simp [h, hex]
    rw [hstep, count_flatMap_singleton]
  · decide

/-- Claim C8: when either file of a matched pair fails to open or read
(and both passed the `isfile` re-checks), the pair contributes exactly zero
missing lines, the failure is recorded as a `compareFailed` diagnostic, and
removing such a pair from anywhere in the pair list leaves the analysis of
every other pair untouched (the run is not aborted). -/
theorem C8_read_failure (fs : FS)
    (rd : List Char → Except (List Char) (List (List Char)))
    (t p e : List Char) (pre post : List (List Char × List Char))
    (ht : fs.isFile t = true) (hp : fs.isFile p = true)
    (herr : rd t = Except.error e ∨ rd p = Except.error e) :
    (find_missing_lines_checked fs rd t p).1 = [] ∧
    (∃ e', (find_missing_lines_checked fs rd t p).2 = [RunDiag.compareFailed t p e']) ∧
    analyze_all_files fs rd (pre ++ (t, p) :: post) =
      analyze_all_files fs rd pre ++ analyze_all_files fs rd post := by
  have hfml : ∃ e', find_missing_lines_checked fs rd t p =
      ([], [RunDiag.compareFailed t p e']) := by
    unfold find_missing_lines_checked
    rcases herr with h | h
    · exact ⟨e, by simp [ht, hp, h]⟩
    · cases hrt : rd t with
      | error e1 => exact ⟨e1, by simp [ht, hp, hrt]⟩
      | ok tl => exact ⟨e, by simp [ht, hp, hrt, h]⟩
  obtain ⟨e', he'⟩ := hfml
  refine ⟨by rw [he'], ⟨e', by rw [he']⟩, ?_⟩
  unfold analyze_all_files
  rw [List.filterMap_append, List.filterMap_cons]
  simp [he']

/-- Filesystem for the C8 witness: everything is a regular file. -/
def c8_fs : FS := { pexists := fun _ => true, isFile := fun _ => true }

/-- Template path of the C8 witness. -/
def c8_t : List Char := "app.template.json".toList

/-- Parent path of the C8 witness. -/
def c8_p : List Char := "app.json".toList

/-- The error payload raised while opening the parent of the C8 witness. -/
def c8_err : List Char := "io error".toList

/-- Reader for the C8 witness: the parent file read fails. -/
def c8_rd : List Char → Except (List Char) (List (List Char)) :=
  fun q => if q = c8_p then Except.error c8_err else Except.ok [ "A=1\n".toList]

/-- Witness for C8 at a concrete failing pair. -/
theorem C8_witness :
    (find_missing_lines_checked c8_fs c8_rd c8_t c8_p).1 = [] ∧
    (∃ e', (find_missing_lines_checked c8_fs c8_rd c8_t c8_p).2 =
      [RunDiag.compareFailed c8_t c8_p e']) ∧
    analyze_all_files c8_fs c8_rd ([] ++ (c8_t, c8_p) :: []) =
      analyze_all_files c8_fs c8_rd [] ++ analyze_all_files c8_fs c8_rd [] :=
  C8_read_failure c8_fs c8_rd c8_t c8_p c8_err [] [] rfl rfl (Or.inr (by simp [c8_rd, c8_p]))

/-- A pair with key `a` in an association list makes `List.lookup a` succeed. -/
theorem lookup_isSome_of_mem {l : List (List Char × List Char)} {a b : List Char}
    (h : (a, b) ∈ l) : (List.lookup a l).isSome = true := by
  induction l with
  | nil => cases h
  | cons x xs ih =>
    obtain ⟨k, v⟩ := x
    by_cases hk : a == k
    · simp [List.lookup, hk]
    · rcases List.mem_cons.1 h with h1 | h1
      · injection h1 with e1 e2
        rw [e1] at hk
        simp at hk
      · simp [List.lookup, hk, ih h1]

/-- When every difference entry's template is a key of the parent map, the
report's section traversal succeeds. -/
theorem report_sections_ok (parents : List (List Char × List Char)) :
    ∀ (diffs : List (List Char × List (List Char))),
      (∀ td ∈ diffs, (List.lookup td.1 parents).isSome = true) →
      ∃ secs, report_sections parents diffs = Except.ok secs := by
  intro diffs
  induction diffs with
  | nil => exact fun _ => ⟨[], rfl⟩
  | cons td tds ih =>
    intro h
    obtain ⟨p, hp⟩ := Option.isSome_iff_exists.1 (h td (List.mem_cons_self td tds))
    obtain ⟨secs, hsecs⟩ := ih (fun x hx => h x (List.mem_cons_of_mem _ hx))
    exact ⟨report_section td.1 p td.2 :: secs, by simp [report_sections, hp, hsecs]⟩

/-- Claim C9: after `analyze_all_files`, every recorded difference has a
strictly nonempty missing-line list and its template is a key of the
template-to-parent map; consequently `generate_report` succeeds on the
result, and each of its per-template sections is built by the nonempty
branch — the in-section `No missing content found.` branch is never
taken. -/
theorem C9_invariants (fs : FS)
    (rd : List Char → Except (List Char) (List (List Char)))
    (parents : List (List Char × List Char)) (ts bd : List Char)
    (tfs : List (List Char)) :
    (∀ t ls, (t, ls) ∈ analyze_all_files fs rd parents →
      ls ≠ [] ∧ (List.lookup t parents).isSome = true)
    ∧ (∃ r, generate_report ts bd tfs parents (analyze_all_files fs rd parents) =
        Except.ok r)
    ∧ (∀ t ls p, (t, ls) ∈ analyze_all_files fs rd parents →
        report_section t p ls = report_section_nonempty t p ls) := by
  have hmem : ∀ t ls, (t, ls) ∈ analyze_all_files fs rd parents →
      ls ≠ [] ∧ (List.lookup t parents).isSome = true := by
    intro t ls hm
    unfold analyze_all_files at hm
    rcases List.mem_filterMap.1 hm with ⟨tp, htp, hsome⟩
    by_cases hne : (find_missing_lines_checked fs rd tp.1 tp.2).1.isEmpty
    · simp [hne] at hsome
    · simp [hne] at hsome
      obtain ⟨h1, h2⟩ := hsome
      constructor
      · intro hnil
        rw [hnil] at h2
        exact hne (by rw [h2]; rfl)
      · exact lookup_isSome_of_mem (a := t) (b := tp.2) (by rw [← h1]; exact htp)
  refine ⟨hmem, ?_, ?_⟩
  · unfold generate_report
    by_cases hd : (analyze_all_files fs rd parents).isEmpty
    · simp only [hd]
      exact ⟨_, rfl⟩
    · obtain ⟨secs, hsecs⟩ := report_sections_ok parents (analyze_all_files fs rd parents)
        (fun td htd => (hmem td.1 td.2 htd).2)
      simp only [hd, hsecs]
      exact ⟨_, rfl⟩
  · intro t ls p hm
    have hne := (hmem t ls hm).1
    have hne' : ls.isEmpty = false := by
      cases ls with
      | nil => exact absurd rfl hne
      | cons a as => rfl
    unfold report_section report_section_nonempty
    simp [hne']

/-- Filesystem for the C9 witness. -/
def c9_fs : FS := { pexists := fun _ => true, isFile := fun _ => true }

/-- Template path of the C9 witness. -/
def c9_t : List Char := "x.env.template".toList

/-- Parent path of the C9 witness. -/
def c9_p : List Char := "x.env".toList

/-- Parent map of the C9 witness. -/
def c9_parents : List (List Char × List Char) := [(c9_t, c9_p)]

/-- Reader for the C9 witness: the parent has one structural line the
(empty) template lacks. -/
def c9_rd : List Char → Except (List Char) (List (List Char)) :=
  fun q => if q = c9_p then Except.ok [ "A=1\n".toList] else Except.ok []

/-- Witness for C9 at a concrete run with one difference entry. -/
theorem C9_witness :
    [ "A=1".toList] ≠ ([] : List (List Char)) ∧
    (List.lookup c9_t c9_parents).isSome = true :=
  (C9_invariants c9_fs c9_rd c9_parents [] [] []).1 c9_t [ "A=1".toList] (by decide)

/-- Unfolding equation for `rstrip` on a cons cell. -/
theorem rstrip_cons (c : Char) (t : List Char) :
    rstrip (c :: t) =
      if (rstrip t).isEmpty then (if isPySpace c then [] else [c]) else c :: rstrip t := rfl

/-- An environment-key character is not whitespace. -/
theorem env_not_ws {c : Char} (h : isEnvKeyChar c = true) : isPySpace c = false := by
  cases hw : isPySpace c
  · rfl
  · simp only [isPySpace, Bool.or_eq_true, decide_eq_true_eq, or_assoc] at hw
    rcases hw with h1 | h1 | h1 | h1 | h1 | h1 <;> subst h1 <;> simp [isEnvKeyChar] at h

/-- A JSON-key character is not whitespace. -/
theorem jsonkey_not_ws {c : Char} (h : isJsonKeyChar c = true) : isPySpace c = false := by
  cases hw : isPySpace c
  · rfl
  · simp only [isPySpace, Bool.or_eq_true, decide_eq_true_eq, or_assoc] at hw
    rcases hw with h1 | h1 | h1 | h1 | h1 | h1 <;> subst h1 <;> simp [isJsonKeyChar] at h

/-- An environment-key character is a JSON-key character. -/
theorem env_jsonkey {c : Char} (h : isEnvKeyChar c = true) : isJsonKeyChar c = true := by
  simp only [isEnvKeyChar, Bool.or_eq_true, Bool.and_eq_true, decide_eq_true_eq] at h
  simp only [isJsonKeyChar, Bool.or_eq_true, Bool.and_eq_true, decide_eq_true_eq]
  tauto

/-- A character of a Boolean class is distinct from any character outside it. -/
theorem class_ne_char {f : Char → Bool} {c : Char} (h : f c = true) {d : Char}
    (hd : f d = false) : c ≠ d := by
  intro he
  subst he
  rw [h] at hd
  cases hd

/-- A digit character is not whitespace. -/
theorem digit_not_ws {c : Char} (h : isDigitChar c = true) : isPySpace c = false := by
  cases hw : isPySpace c
  · rfl
  · simp only [isPySpace, Bool.or_eq_true, decide_eq_true_eq, or_assoc] at hw
    rcases hw with h1 | h1 | h1 | h1 | h1 | h1 <;> subst h1 <;> simp [isDigitChar] at h

/-- The first character, when present, is not whitespace. -/
def NoWsHead (l : List Char) : Prop := ∀ c, l.head? = some c → isPySpace c = false

/-- The last character, when present, is not whitespace. -/
def NoWsLast (l : List Char) : Prop := ∀ c, l.getLast? = some c → isPySpace c = false

theorem lstrip_eq_self {l : List Char} (h : NoWsHead l) : lstrip l = l := by
  cases l with
  | nil => rfl
  | cons c t =>
    have := h c rfl
    simp [lstrip, List.dropWhile_cons, this]

theorem noWsHead_lstrip (l : List Char) : NoWsHead (lstrip l) := by
  induction l with
  | nil => intro c hc; cases hc
  | cons c t ih =>
    cases hp : isPySpace c
    · intro d hd
      simp [lstrip, List.dropWhile_cons, hp] at hd
      rw [← hd]
      exact hp
    · intro d hd
      simp only [lstrip, List.dropWhile_cons, hp, if_true] at hd
      exact ih d hd

theorem rstrip_eq_self {l : List Char} (h : NoWsLast l) : rstrip l = l := by
  induction l with
  | nil => rfl
  | cons c t ih =>
    cases t with
    | nil =>
      have hc := h c rfl
      rw [rstrip_cons]
      simp [rstrip, hc]
    | cons d t' =>
      have ht : NoWsLast (d :: t') := by
        intro e he
        exact h e (by rw [List.getLast?_cons_cons]; exact he)
      rw [rstrip_cons, ih ht]
      simp

theorem noWsHead_rstrip {l : List Char} (h : NoWsHead l) : NoWsHead (rstrip l) := by
  cases l with
  | nil => intro c hc; cases hc
  | cons c t =>
    intro d hd
    rw [rstrip_cons] at hd
    split at hd
    · split at hd
      · cases hd
      · rw [show ([c] : List Char).head? = some c from rfl] at hd
        injection hd with hd
        rw [← hd]
        exact h c rfl
    · rw [show (c :: rstrip t).head? = some c from rfl] at hd
      injection hd with hd
      rw [← hd]
      exact h c rfl

theorem noWsLast_rstrip (l : List Char) : NoWsLast (rstrip l) := by
  induction l with
  | nil => intro c hc; cases hc
  | cons c t ih =>
    intro d hd
    rw [rstrip_cons] at hd
    split at hd
    · split at hd
      · cases hd
      next hws =>
        rw [show ([c] : List Char).getLast? = some c from rfl] at hd
        injection hd with hd
        rw [← hd]
        cases hws' : isPySpace c
        · rfl
        · exact absurd hws' (by simpa using hws)
    · next hne =>
      cases hr : rstrip t with
      | nil => rw [hr] at hne; simp at hne
      | cons e r' =>
        rw [hr, List.getLast?_cons_cons] at hd
        rw [← hr] at hd
        exact ih d hd

/-- `strip` leaves any list with non-whitespace ends unchanged. -/
theorem strip_eq_self {l : List Char} (hh : NoWsHead l) (hl : NoWsLast l) : strip l = l := by
  unfold strip
  rw [lstrip_eq_self hh, rstrip_eq_self hl]

theorem noWsHead_strip (l : List Char) : NoWsHead (strip l) :=
  noWsHead_rstrip (noWsHead_lstrip l)

theorem noWsLast_strip (l : List Char) : NoWsLast (strip l) :=
  noWsLast_rstrip (lstrip l)

/-- `takeWhile` over a list whose prefix satisfies `p` and whose next
character refutes it. -/
theorem takeWhile_append_of_all {p : Char → Bool} :
    ∀ (x : List Char), (∀ c ∈ x, p c = true) → ∀ {c : Char}, p c = false →
      ∀ (y : List Char), (x ++ c :: y).takeWhile p = x := by
  intro x
  induction x with
  | nil => intro _ c hc y; simp [List.takeWhile_cons, hc]
  | cons d x' ih =>
    intro hall c hc y
    have hd := hall d (List.mem_cons_self d x')
    simp only [List.cons_append, List.takeWhile_cons, hd, if_true]
    rw [ih (fun e he => hall e (List.mem_cons_of_mem _ he)) hc y]

/-- `dropWhile` over a list whose prefix satisfies `p` and whose next
character refutes it. -/
theorem dropWhile_append_of_all {p : Char → Bool} :
    ∀ (x : List Char), (∀ c ∈ x, p c = true) → ∀ {c : Char}, p c = false →
      ∀ (y : List Char), (x ++ c :: y).dropWhile p = c :: y := by
  intro x
  induction x with
  | nil => intro _ c hc y; simp [List.dropWhile_cons, hc]
  | cons d x' ih =>
    intro hall c hc y
    have hd := hall d (List.mem_cons_self d x')
    simp only [List.cons_append, List.dropWhile_cons, hd, if_true]
    exact ih (fun e he => hall e (List.mem_cons_of_mem _ he)) hc y

/-- `dropWhile` skips a fully-satisfying prefix. -/
theorem dropWhile_append_all {p : Char → Bool} :
    ∀ (x : List Char), (∀ c ∈ x, p c = true) →
      ∀ (y : List Char), (x ++ y).dropWhile p = y.dropWhile p := by
  intro x
  induction x with
  | nil => intro _ y; rfl
  | cons d x' ih =>
    intro hall y
    have hd := hall d (List.mem_cons_self d x')
    simp only [List.cons_append, List.dropWhile_cons, hd, if_true]
    exact ih (fun e he => hall e (List.mem_cons_of_mem _ he)) y

/-- `rstrip` keeps everything up to and including a non-whitespace
character. -/
theorem rstrip_append_cons {c : Char} (hc : isPySpace c = false) :
    ∀ (a b : List Char), rstrip (a ++ c :: b) = a ++ c :: rstrip b := by
  intro a
  induction a with
  | nil =>
    intro b
    rw [List.nil_append, rstrip_cons]
    cases hr : rstrip b with
    | nil => simp [hc]
    | cons e r' => simp
  | cons d a' ih =>
    intro b
    rw [List.cons_append, rstrip_cons, ih b]
    have : (a' ++ c :: rstrip b).isEmpty = false := by
      cases a' <;> rfl
    rw [this]
    simp

/-- One occurrence of `pat` inside `l`, phrased by its end position. -/
def HasOcc (pat l : List Char) : Prop := ∃ j, j ≤ l.length ∧ pat <:+ l.take j

theorem mem_occEnds {pat l : List Char} {j : Nat} :
    j ∈ occEnds pat l ↔ j ≤ l.length ∧ pat.isSuffixOf (l.take j) = true := by
  simp [occEnds, List.mem_filter, List.mem_range, Nat.lt_succ_iff]

theorem occEnds_eq_nil_iff {pat l : List Char} :
    occEnds pat l = [] ↔ ¬ HasOcc pat l := by
  constructor
  · intro h hocc
    obtain ⟨j, hj, hs⟩ := hocc
    have hm : j ∈ occEnds pat l :=
      mem_occEnds.2 ⟨hj, List.isSuffixOf_iff_suffix.2 hs⟩
    rw [h] at hm
    cases hm
  · intro h
    cases hne : occEnds pat l with
    | nil => rfl
    | cons a as =>
      exfalso
      apply h
      have hm := mem_occEnds.1 (hne ▸ List.mem_cons_self a as)
      exact ⟨a, hm.1, List.isSuffixOf_iff_suffix.1 hm.2⟩

theorem subTail_of_not_occ {pat ph l : List Char} (h : ¬ HasOcc pat l) :
    subTail pat ph l = l := by
  unfold subTail
  rw [occEnds_eq_nil_iff.2 h]
  rfl

/-- `getLast?` of a filtered range is the greatest satisfying index. -/
theorem filter_range_getLast {p : Nat → Bool} :
    ∀ {n j : Nat}, p j = true → j < n → (∀ i, j < i → i < n → p i = false) →
      ((List.range n).filter p).getLast? = some j := by
  intro n
  induction n with
  | zero => intro j _ hj _; omega
  | succ m ih =>
    intro j hp hjn hmax
    rw [List.range_succ, List.filter_append]
    rcases Nat.lt_or_ge j m with hj | hj
    · have hm : p m = false := hmax m hj (Nat.lt_succ_self m)
      rw [show List.filter p [m] = [] by simp [List.filter_cons, hm]]
      rw [List.append_nil]
      exact ih hp hj (fun i h1 h2 => hmax i h1 (Nat.lt_succ_of_lt h2))
    · have hjm : j = m := by omega
      subst hjm
      rw [show List.filter p [j] = [j] by simp [List.filter_cons, hp]]
      exact List.getLast?_concat _

/-- `subTail` replaces everything after the greatest occurrence end. -/
theorem subTail_eq_of_max {pat ph l : List Char} {j : Nat}
    (hj : pat <:+ l.take j) (hjle : j ≤ l.length)
    (hmax : ∀ i, j < i → i ≤ l.length → ¬ pat <:+ l.take i) :
    subTail pat ph l = l.take j ++ ph := by
  unfold subTail occEnds
  rw [filter_range_getLast (p := fun i => pat.isSuffixOf (l.take i))
      (List.isSuffixOf_iff_suffix.2 hj) (by omega)
      (fun i h1 h2 => by
        show pat.isSuffixOf (l.take i) = false
        cases hs : pat.isSuffixOf (l.take i)
        · rfl
        · exact absurd (List.isSuffixOf_iff_suffix.1 hs) (hmax i h1 (by omega)))]

/-- Occurrences of a pattern ending in a distinguished character `c` are
exactly the splits of `l` at a `c` whose left part ends with the pattern
body. -/
theorem hasOcc_concat_iff {s : List Char} {c : Char} {l : List Char} :
    HasOcc (s ++ [c]) l ↔ ∃ a b, l = a ++ c :: b ∧ s <:+ a := by
  constructor
  · rintro ⟨j, hjle, u, hu⟩
    refine ⟨u ++ s, l.drop j, ?_, List.suffix_append u s⟩
    conv_lhs => rw [← List.take_append_drop j l, ← hu]
    simp
  · rintro ⟨a, b, hl, u, hu⟩
    refine ⟨a.length + 1, ?_, ?_⟩
    · rw [hl]
      simp
    · rw [hl, List.take_append (i := 1)]
      exact ⟨u, by rw [← hu]; simp⟩

/-- No occurrence of `s ++ [c]` when `c` is absent. -/
theorem not_hasOcc_of_not_mem {s : List Char} {c : Char} {l : List Char}
    (h : c ∉ l) : ¬ HasOcc (s ++ [c]) l := by
  intro hocc
  obtain ⟨a, b, hl, -⟩ := hasOcc_concat_iff.1 hocc
  exact h (hl ▸ List.mem_append.2 (Or.inr (List.mem_cons_self c b)))

/-- An occurrence inside a prefix is an occurrence. -/
theorem hasOcc_of_take {m l : List Char} {j : Nat} (h : HasOcc m (l.take j)) :
    HasOcc m l := by
  obtain ⟨i, hile, hs⟩ := h
  refine ⟨i ⊓ j, ?_, ?_⟩
  · have := List.length_take j l
    omega
  · rwa [List.take_take] at hs

theorem hasOcc_append_left {m u v : List Char} (h : HasOcc m u) : HasOcc m (u ++ v) := by
  obtain ⟨j, hjle, hs⟩ := h
  refine ⟨j, by simp; omega, ?_⟩
  rw [List.take_append_eq_append_take, show j - u.length = 0 by omega]
  simpa using hs

theorem suffix_append_left {s b : List Char} (h : s <:+ b) (a : List Char) :
    s <:+ a ++ b :=
  h.trans (List.suffix_append a b)

theorem hasOcc_append_right {m u v : List Char} (h : HasOcc m v) : HasOcc m (u ++ v) := by
  obtain ⟨j, hjle, hs⟩ := h
  refine ⟨u.length + j, by simp; omega, ?_⟩
  rw [List.take_append]
  exact suffix_append_left hs u

/-- A suffix of `x ++ y` is a suffix of `y`, or extends `y` to the left
into `x`. -/
theorem suffix_append_cases {s x y : List Char} (h : s <:+ x ++ y) :
    s <:+ y ∨ ∃ s', s = s' ++ y ∧ s' <:+ x := by
  obtain ⟨t, ht⟩ := h
  rcases le_or_lt s.length y.length with hle | hlt
  · left
    refine ⟨t.drop x.length, ?_⟩
    have hlen : t.length + s.length = x.length + y.length := by
      have := congrArg List.length ht
      simpa using this
    have hxt : x.length ≤ t.length := by omega
    have h1 : List.drop x.length (t ++ s) = t.drop x.length ++ s := by
      rw [List.drop_append_eq_append_drop, show x.length - t.length = 0 by omega]
      simp
    rw [← h1, ht]
    exact List.drop_left x y
  · right
    have hlen : t.length + s.length = x.length + y.length := by
      have := congrArg List.length ht
      simpa using this
    have hsplit : s = s.take (s.length - y.length) ++ s.drop (s.length - y.length) :=
      (List.take_append_drop _ s).symm
    have hlen2 : (s.drop (s.length - y.length)).length = y.length := by
      rw [List.length_drop]
      omega
    have hx : x ++ y = (t ++ s.take (s.length - y.length)) ++ s.drop (s.length - y.length) := by
      rw [List.append_assoc, ← hsplit, ht]
    obtain ⟨he1, he2⟩ := List.append_inj' hx (by rw [hlen2])
    exact ⟨s.take (s.length - y.length), by rw [← he2] at hsplit; exact hsplit,
      ⟨t, he1.symm⟩⟩

/-- A character named by `getLast?` belongs to the list. -/
theorem mem_of_getLast?_eq {l : List Char} {c : Char} (h : l.getLast? = some c) :
    c ∈ l := by
  cases l with
  | nil => cases h
  | cons a t =>
    rw [List.getLast?_eq_getLast (a :: t) (by simp)] at h
    injection h with h
    rw [← h]
    exact List.getLast_mem _

/-- A nonempty suffix determines `getLast?`. -/
theorem getLast?_of_suffix_ne_nil {s l : List Char} (h : s <:+ l) (hne : s ≠ []) :
    l.getLast? = s.getLast? := by
  obtain ⟨t, ht⟩ := h
  rw [← ht, List.getLast?_append]
  cases hs : s.getLast? with
  | none => exact absurd (List.getLast?_eq_none_iff.1 hs) hne
  | some c => rfl

/-- THE separator lemma: occurrences of a marker `s ++ ['=']` cannot cross
a character that belongs neither to `s` nor is `'='`. -/
theorem hasOcc_marker_sep {s : List Char} {csep : Char} (hcs : csep ∉ s)
    (hne : csep ≠ '=') (u v : List Char) :
    HasOcc (s ++ ['=']) (u ++ csep :: v) ↔ HasOcc (s ++ ['=']) u ∨ HasOcc (s ++ ['=']) v := by
  constructor
  · intro h
    obtain ⟨a, b, heq, hsa⟩ := hasOcc_concat_iff.1 h
    rcases List.append_eq_append_iff.1 heq with ⟨w, hw1, hw2⟩ | ⟨w, hw1, hw2⟩
    · -- a = u ++ w and csep :: v = w ++ '=' :: b
      cases w with
      | nil =>
        rw [List.nil_append] at hw2
        injection hw2 with h1 _
        exact absurd h1 hne
      | cons w0 w' =>
        rw [List.cons_append] at hw2
        injection hw2 with h0 hv
        subst h0
        rw [show u ++ csep :: w' = (u ++ [csep]) ++ w' by simp] at hw1
        rw [hw1] at hsa
        rcases suffix_append_cases hsa with hcase | ⟨s', hs1, hs2⟩
        · right
          exact hasOcc_concat_iff.2 ⟨w', b, hv, hcase⟩
        · cases hs'e : s' with
          | nil =>
            right
            rw [hs'e, List.nil_append] at hs1
            exact hasOcc_concat_iff.2 ⟨w', b, hv, hs1 ▸ List.suffix_refl w'⟩
          | cons e s'' =>
            exfalso
            have hlast : (u ++ [csep]).getLast? = some csep := List.getLast?_concat u
            rw [getLast?_of_suffix_ne_nil hs2 (by rw [hs'e]; simp)] at hlast
            have hmem : csep ∈ s' := mem_of_getLast?_eq hlast
            exact hcs (hs1 ▸ List.mem_append.2 (Or.inl hmem))
    · -- u = a ++ w and '=' :: b = w ++ csep :: v
      cases w with
      | nil =>
        rw [List.nil_append] at hw2
        injection hw2 with h1 _
        exact absurd h1.symm hne
      | cons w0 w' =>
        rw [List.cons_append] at hw2
        injection hw2 with h0 hb
        left
        exact hasOcc_concat_iff.2 ⟨a, w', by rw [hw1, ← h0], hsa⟩
  · intro h
    rcases h with h | h
    · obtain ⟨a, b, heq, hsa⟩ := hasOcc_concat_iff.1 h
      exact hasOcc_concat_iff.2 ⟨a, b ++ csep :: v, by rw [heq]; simp, hsa⟩
    · obtain ⟨a, b, heq, hsa⟩ := hasOcc_concat_iff.1 h
      refine hasOcc_concat_iff.2 ⟨u ++ csep :: a, b, by rw [heq]; simp, ?_⟩
      rw [show u ++ csep :: a = (u ++ [csep]) ++ a by simp]
      exact suffix_append_left hsa _

/-- Whether the environment-assignment rule matches: a nonempty `[A-Z0-9_]`
run at the start, immediately followed by `=`. -/
def envFires (l : List Char) : Bool :=
  !(l.takeWhile isEnvKeyChar).isEmpty && ((l.dropWhile isEnvKeyChar).head? == some '=')

theorem subEnv_of_not_fires {l : List Char} (h : envFires l = false) : subEnv l = l := by
  unfold subEnv
  split
  next r heq =>
    unfold envFires at h
    rw [heq] at h
    simp at h
    simp [h]
  next => rfl

theorem subEnv_of_fires {l : List Char} (h : envFires l = true) :
    subEnv l = l.takeWhile isEnvKeyChar ++ '=' :: valuePH ∧
    ∃ r, l.dropWhile isEnvKeyChar = '=' :: r := by
  unfold envFires at h
  rw [Bool.and_eq_true] at h
  obtain ⟨hk, hh⟩ := h
  have hh' : (l.dropWhile isEnvKeyChar).head? = some '=' := eq_of_beq hh
  obtain ⟨r, hr⟩ : ∃ r, l.dropWhile isEnvKeyChar = '=' :: r := by
    cases hd : l.dropWhile isEnvKeyChar with
    | nil => rw [hd] at hh'; cases hh'
    | cons c r =>
      rw [hd] at hh'
      injection hh' with hc
      exact ⟨r, by rw [hc]⟩
  constructor
  · unfold subEnv
    rw [hr]
    have hke : ¬ ((l.takeWhile isEnvKeyChar).isEmpty = true) := by
      intro hke'
      rw [hke'] at hk
      cases hk
    show (if (l.takeWhile isEnvKeyChar).isEmpty = true then l
        else l.takeWhile isEnvKeyChar ++ '=' :: valuePH) = _
    rw [if_neg hke]
  · exact ⟨r, hr⟩

theorem dropWhile_head_congr {p : Char → Bool} {a : List Char}
    (hw : ∃ c ∈ a, p c = false) (b b' : List Char) :
    ((a ++ b).dropWhile p).head? = ((a ++ b').dropWhile p).head? := by
  induction a with
  | nil => obtain ⟨c, hc, -⟩ := hw; cases hc
  | cons d a' ih =>
    cases hd : p d
    · simp [List.dropWhile_cons, hd]
    · have hw' : ∃ c ∈ a', p c = false := by
        obtain ⟨c, hc, hcf⟩ := hw
        rcases List.mem_cons.1 hc with rfl | hc'
        · rw [hd] at hcf; cases hcf
        · exact ⟨c, hc', hcf⟩
      simp only [List.cons_append, List.dropWhile_cons, hd, if_true]
      exact ih hw'

/-- Whether the environment rule fires is decided inside a prefix that
contains a non-key character. -/
theorem envFires_congr {a : List Char} (hw : ∃ c ∈ a, isEnvKeyChar c = false)
    (b b' : List Char) : envFires (a ++ b) = envFires (a ++ b') := by
  cases a with
  | nil => obtain ⟨c, hc, -⟩ := hw; cases hc
  | cons d a' =>
    cases hd : isEnvKeyChar d
    · unfold envFires
      simp [List.takeWhile_cons, hd]
    · have hw' : ∃ c ∈ a', isEnvKeyChar c = false := by
        obtain ⟨c, hc, hcf⟩ := hw
        rcases List.mem_cons.1 hc with rfl | hc'
        · rw [hd] at hcf; cases hcf
        · exact ⟨c, hc', hcf⟩
      unfold envFires
      simp only [List.cons_append, List.takeWhile_cons, List.dropWhile_cons, hd, if_true]
      rw [dropWhile_head_congr hw' b b']
      simp

/-- The unique `=`-split of `k ++ '=' :: P` when neither side holds `=`. -/
theorem eq_split_unique {k P a b : List Char} (hk : '=' ∉ k) (hP : '=' ∉ P)
    (h : k ++ '=' :: P = a ++ '=' :: b) : a = k ∧ b = P := by
  rcases List.append_eq_append_iff.1 h with ⟨w, hw1, hw2⟩ | ⟨w, hw1, hw2⟩
  · cases w with
    | nil =>
      rw [List.nil_append] at hw2
      injection hw2 with _ h2
      rw [List.append_nil] at hw1
      exact ⟨hw1, h2.symm⟩
    | cons w0 w' =>
      rw [List.cons_append] at hw2
      injection hw2 with h0 h2
      exfalso
      apply hP
      rw [h2]
      exact List.mem_append.2 (Or.inr (List.mem_cons_self '=' b))
  · cases w with
    | nil =>
      rw [List.nil_append] at hw2
      injection hw2 with _ h2
      rw [List.append_nil] at hw1
      exact ⟨hw1.symm, h2⟩
    | cons w0 w' =>
      rw [List.cons_append] at hw2
      injection hw2 with h0 h2
      exfalso
      apply hk
      rw [hw1, ← h0]
      exact List.mem_append.2 (Or.inr (List.mem_cons_self '=' w'))

/-- On a line `k ++ '=' :: P` with the unique `=` between them, `subTail`
for a marker `s ++ ['=']` fires iff `k` ends with `s`, and then wipes
everything after the `=`. -/
theorem subTail_env {s ph k P : List Char} (hk : '=' ∉ k) (hP : '=' ∉ P) :
    subTail (s ++ ['=']) ph (k ++ '=' :: P) =
      if s.isSuffixOf k then k ++ '=' :: ph else k ++ '=' :: P := by
  cases hs : s.isSuffixOf k
  · rw [if_neg (by simp)]
    apply subTail_of_not_occ
    intro hocc
    obtain ⟨a, b, heq, hsa⟩ := hasOcc_concat_iff.1 hocc
    obtain ⟨ha, -⟩ := eq_split_unique hk hP heq
    rw [ha] at hsa
    rw [List.isSuffixOf_iff_suffix.2 hsa] at hs
    cases hs
  · rw [if_pos rfl]
    have htake : (k ++ '=' :: P).take (k.length + 1) = k ++ ['='] := by
      rw [List.take_append (i := 1)]
      rfl
    have hsfx : (s ++ ['=']) <:+ (k ++ '=' :: P).take (k.length + 1) := by
      rw [htake]
      obtain ⟨u, hu⟩ := List.isSuffixOf_iff_suffix.1 hs
      exact ⟨u, by rw [← hu]; simp⟩
    have hres := @subTail_eq_of_max _ ph _ _ hsfx (by simp) ?_
    · rw [hres, htake]
      simp
    · intro i hi hile hocc
      have hlen : i ≤ k.length + 1 + P.length := by
        have hle2 := hile
        simp at hle2
        omega
      have hPlen : P ≠ [] := by
        intro hPnil
        rw [hPnil] at hlen
        simp at hlen
        omega
      have htake2 : (k ++ '=' :: P).take i = (k ++ ['=']) ++ P.take (i - (k.length + 1)) := by
        rw [show k ++ '=' :: P = (k ++ ['=']) ++ P by simp]
        rw [List.take_append_eq_append_take]
        congr 1
        · rw [List.take_of_length_le (by simp; omega)]
        · congr 1
          simp
      have hlast : ((k ++ '=' :: P).take i).getLast? = some '=' := by
        rw [getLast?_of_suffix_ne_nil hocc (by simp)]
        rw [show s ++ ['='] = (s ++ ['=']) from rfl]
        exact List.getLast?_concat s
      rw [htake2, List.getLast?_append] at hlast
      have hPt : P.take (i - (k.length + 1)) ≠ [] := by
        intro hnil
        have := congrArg List.length hnil
        simp at this
        rcases this with h1 | h1
        · omega
        · exact hPlen (by cases P with | nil => rfl | cons _ _ => simp at h1)
      cases hPl : (P.take (i - (k.length + 1))).getLast? with
      | none => exact hPt (List.getLast?_eq_none_iff.1 hPl)
      | some d =>
        rw [hPl] at hlast
        simp at hlast
        apply hP
        have hd : d ∈ P.take (i - (k.length + 1)) := mem_of_getLast?_eq hPl
        rw [hlast] at hd
        exact List.mem_of_mem_take hd

/-- Among suffixes of a common list, the shorter is a suffix of the longer. -/
theorem suffix_of_suffix_le {s1 s2 k : List Char} (h1 : s1 <:+ k) (h2 : s2 <:+ k)
    (hle : s1.length ≤ s2.length) : s1 <:+ s2 := by
  have hs2k : s2.length ≤ k.length := h2.length_le
  have e1 := List.suffix_iff_eq_drop.1 h1
  have e2 := List.suffix_iff_eq_drop.1 h2
  rw [e1, e2]
  have harith : k.length - s1.length = (k.length - s2.length) + (s2.length - s1.length) := by
    omega
  rw [harith, ← List.drop_drop]
  exact List.drop_suffix _ _

/-- The marker body `_SECRET`. -/
def bSECRET : List Char := "_SECRET".toList

/-- The marker body `_KEY`. -/
def bKEY : List Char := "_KEY".toList

/-- The marker body `_TOKEN`. -/
def bTOKEN : List Char := "_TOKEN".toList

/-- The marker body `_PASSWORD`. -/
def bPASSWORD : List Char := "_PASSWORD".toList

theorem mSECRET_eq : mSECRET = bSECRET ++ ['='] := by decide
theorem mKEY_eq : mKEY = bKEY ++ ['='] := by decide
theorem mTOKEN_eq : mTOKEN = bTOKEN ++ ['='] := by decide
theorem mPASSWORD_eq : mPASSWORD = bPASSWORD ++ ['='] := by decide

/-- The suffix-kind placeholder selected for an assignment key, i.e. the
net effect of the four secret-suffix rules after the generic rule wiped the
value. -/
def kindPH (k : List Char) : List Char :=
  if bSECRET.isSuffixOf k then secretPH
  else if bKEY.isSuffixOf k then keyPH
  else if bTOKEN.isSuffixOf k then tokenPH
  else if bPASSWORD.isSuffixOf k then passwordPH
  else valuePH

/-- Two marker bodies that are not suffixes of each other cannot both be
suffixes of the same key. -/
theorem marker_excl {s1 s2 k : List Char} (h1 : s1 <:+ k)
    (hb : s2.isSuffixOf s1 = false) (hb' : s1.isSuffixOf s2 = false) :
    s2.isSuffixOf k = false := by
  cases hs : s2.isSuffixOf k
  · rfl
  · exfalso
    have h2 := List.isSuffixOf_iff_suffix.1 hs
    rcases le_total s1.length s2.length with hle | hle
    · rw [List.isSuffixOf_iff_suffix.2 (suffix_of_suffix_le h1 h2 hle)] at hb'
      cases hb'
    · rw [List.isSuffixOf_iff_suffix.2 (suffix_of_suffix_le h2 h1 hle)] at hb
      cases hb

/-- The four suffix rules, applied in source order to an assignment line
whose value was already wiped, leave the suffix-kind placeholder. -/
theorem tails_env {k : List Char} (hk : '=' ∉ k) :
    subTail mPASSWORD passwordPH (subTail mTOKEN tokenPH (subTail mKEY keyPH
      (subTail mSECRET secretPH (k ++ '=' :: valuePH)))) = k ++ '=' :: kindPH k := by
  have hv : '=' ∉ valuePH := by decide
  have hs : '=' ∉ secretPH := by decide
  have hke : '=' ∉ keyPH := by decide
  have hto : '=' ∉ tokenPH := by decide
  rw [mSECRET_eq, subTail_env hk hv]
  by_cases h1 : bSECRET.isSuffixOf k
  · rw [if_pos h1]
    have h1' := List.isSuffixOf_iff_suffix.1 h1
    have e2 : bKEY.isSuffixOf k = false := marker_excl h1' (by decide) (by decide)
    have e3 : bTOKEN.isSuffixOf k = false := marker_excl h1' (by decide) (by decide)
    have e4 : bPASSWORD.isSuffixOf k = false := marker_excl h1' (by decide) (by decide)
    rw [mKEY_eq, subTail_env hk hs, if_neg (by rw [e2]; simp)]
    rw [mTOKEN_eq, subTail_env hk hs, if_neg (by rw [e3]; simp)]
    rw [mPASSWORD_eq, subTail_env hk hs, if_neg (by rw [e4]; simp)]
    rw [kindPH, if_pos h1]
  · rw [if_neg h1]
    rw [mKEY_eq, subTail_env hk hv]
    by_cases h2 : bKEY.isSuffixOf k
    · rw [if_pos h2]
      have h2' := List.isSuffixOf_iff_suffix.1 h2
      have e3 : bTOKEN.isSuffixOf k = false := marker_excl h2' (by decide) (by decide)
      have e4 : bPASSWORD.isSuffixOf k = false := marker_excl h2' (by decide) (by decide)
      rw [mTOKEN_eq, subTail_env hk hke, if_neg (by rw [e3]; simp)]
      rw [mPASSWORD_eq, subTail_env hk hke, if_neg (by rw [e4]; simp)]
      rw [kindPH, if_neg h1, if_pos h2]
    · rw [if_neg h2]
      rw [mTOKEN_eq, subTail_env hk hv]
      by_cases h3 : bTOKEN.isSuffixOf k
      · rw [if_pos h3]
        have h3' := List.isSuffixOf_iff_suffix.1 h3
        have e4 : bPASSWORD.isSuffixOf k = false := marker_excl h3' (by decide) (by decide)
        rw [mPASSWORD_eq, subTail_env hk hto, if_neg (by rw [e4]; simp)]
        rw [kindPH, if_neg h1, if_neg h2, if_pos h3]
      · rw [if_neg h3]
        rw [mPASSWORD_eq, subTail_env hk hv]
        by_cases h4 : bPASSWORD.isSuffixOf k
        · rw [if_pos h4]
          rw [kindPH, if_neg h1, if_neg h2, if_neg h3, if_pos h4]
        · rw [if_neg h4]
          rw [kindPH, if_neg h1, if_neg h2, if_neg h3, if_neg h4]

/-- The JSON-key group cannot match an environment assignment: the key run
is followed by `=`, not `:`. -/
theorem parseJsonG1_env {k r : List Char} (hk : k ≠ [])
    (hall : ∀ c ∈ k, isEnvKeyChar c = true) :
    parseJsonG1 (k ++ '=' :: r) = none := by
  cases k with
  | nil => exact absurd rfl hk
  | cons c k' =>
    have hc := hall c (List.mem_cons_self c k')
    have hcw : isPySpace c = false := env_not_ws hc
    have hcq : c ≠ '"' := class_ne_char hc (by decide)
    have hjall : ∀ d ∈ c :: k', isJsonKeyChar d = true := fun d hd => env_jsonkey (hall d hd)
    have htw : ((c :: k') ++ '=' :: r).takeWhile isPySpace = [] := by
      rw [List.cons_append, List.takeWhile_cons, hcw]
      rfl
    have hdw : ((c :: k') ++ '=' :: r).dropWhile isPySpace = c :: (k' ++ '=' :: r) := by
      rw [List.cons_append, List.dropWhile_cons, hcw]
      rfl
    have hktw : ((c :: k') ++ '=' :: r).takeWhile isJsonKeyChar = c :: k' :=
      takeWhile_append_of_all (c :: k') hjall (by decide) r
    have hkdw : ((c :: k') ++ '=' :: r).dropWhile isJsonKeyChar = '=' :: r :=
      dropWhile_append_of_all (c :: k') hjall (by decide) r
    have hm : (match c :: (k' ++ '=' :: r) with
        | '"' :: t => t
        | _ => c :: (k' ++ '=' :: r)) = c :: (k' ++ '=' :: r) := by
      split
      next heqq =>
        exfalso
        injection heqq with h0 _
        exact hcq h0
      next => rfl
    unfold parseJsonG1
    rw [htw, hdw]
    dsimp only
    rw [hm, show c :: (k' ++ '=' :: r) = (c :: k') ++ '=' :: r from rfl, hktw, hkdw]
    rw [if_neg (by simp)]
    rfl

/-- The JSON-key group cannot match a line whose first non-space character
is not a key character or quote (such as `-`). -/
theorem parseJsonG1_nonkey {l : List Char} {c : Char} {t : List Char}
    (hd : l.dropWhile isPySpace = c :: t) (hq : c ≠ '"')
    (hj : isJsonKeyChar c = false) : parseJsonG1 l = none := by
  have hm : (match c :: t with
      | '"' :: t => t
      | _ => c :: t) = c :: t := by
    split
    next heqq =>
      exfalso
      injection heqq with h0 _
      exact hq h0
    next => rfl
  unfold parseJsonG1
  rw [hd]
  dsimp only
  rw [hm, show (c :: t).takeWhile isJsonKeyChar = [] by rw [List.takeWhile_cons, hj]; rfl]
  rfl

/-- The docker rule cannot fire when the first non-space character is not
`-`. -/
theorem subDocker_nofire_head {l : List Char} {c : Char} {t : List Char}
    (hd : l.dropWhile isPySpace = c :: t) (hne : c ≠ '-') : subDocker l = l := by
  unfold subDocker
  rw [hd]
  dsimp only
  split
  next heq =>
    exfalso
    injection heq with h0 _
    exact hne h0
  next => rfl

/-- A nonempty `dropWhile` result is a suffix. -/
theorem suffix_of_dropWhile_cons {p : Char → Bool} {l : List Char} {c : Char}
    {t : List Char} (h : l.dropWhile p = c :: t) : t <:+ l := by
  have h1 : c :: t <:+ l := h ▸ List.dropWhile_suffix p
  obtain ⟨u, hu⟩ := h1
  exact ⟨u ++ [c], by rw [← hu]; simp⟩

/-- The docker rule cannot fire when the line does not end with `"`. -/
theorem subDocker_nofire_last {l : List Char} {c : Char}
    (hl : l.getLast? = some c) (hne : c ≠ '"') : subDocker l = l := by
  unfold subDocker
  dsimp only
  split
  next r2 heq =>
    split
    next r4 heq2 =>
      have hr4 : r4 <:+ l := by
        have h1 : r2 <:+ l := suffix_of_dropWhile_cons heq
        have h2 : r4 <:+ r2 := suffix_of_dropWhile_cons heq2
        exact List.IsSuffix.trans h2 h1
      split
      next heq3 =>
        exfalso
        have hr4ne : r4 ≠ [] := by
          intro hnil
          rw [hnil] at heq3
          cases heq3
        rw [getLast?_of_suffix_ne_nil hr4 hr4ne, heq3] at hl
        injection hl with hl
        exact hne hl.symm
      all_goals rfl
    next => rfl
  next => rfl

/-- The substitution pipeline of `normalize_line` after the initial strip. -/
def normalize_core (l : List Char) : List Char :=
  subDocker (subJsonNum (subJsonStr
    (subTail mPASSWORD passwordPH (subTail mTOKEN tokenPH (subTail mKEY keyPH
      (subTail mSECRET secretPH (subEnv l)))))))

theorem normalize_line_eq_core (l : List Char) :
    normalize_line l = normalize_core (strip l) := rfl

theorem subJsonStr_of_parse_none {l : List Char} (h : parseJsonG1 l = none) :
    subJsonStr l = l := by
  unfold subJsonStr
  rw [h]

theorem subJsonNum_of_parse_none {l : List Char} (h : parseJsonG1 l = none) :
    subJsonNum l = l := by
  unfold subJsonNum
  rw [h]

/-- `normalize_core` on an environment assignment `k ++ '=' :: v`: the
generic rule wipes the value, the suffix rules pick the kind placeholder,
and the JSON/docker rules cannot match. -/
theorem core_env_shape {k v : List Char} (hk : k ≠ [])
    (hall : ∀ c ∈ k, isEnvKeyChar c = true) :
    normalize_core (k ++ '=' :: v) = k ++ '=' :: kindPH k := by
  have hkeq : '=' ∉ k := by
    intro hmem
    exact absurd (hall '=' hmem) (by decide)
  have h1 : subEnv (k ++ '=' :: v) = k ++ '=' :: valuePH := by
    unfold subEnv
    rw [takeWhile_append_of_all k hall (by decide) v,
      dropWhile_append_of_all k hall (by decide) v]
    dsimp only
    rw [if_neg (fun he => hk (List.isEmpty_iff.1 he))]
    rfl
  obtain ⟨c, k', rfl⟩ : ∃ c k', k = c :: k' := by
    cases k with
    | nil => exact absurd rfl hk
    | cons c k' => exact ⟨c, k', rfl⟩
  have hc := hall c (List.mem_cons_self c k')
  have hnofire : ∀ P : List Char, parseJsonG1 ((c :: k') ++ '=' :: P) = none ∧
      subDocker ((c :: k') ++ '=' :: P) = (c :: k') ++ '=' :: P := by
    intro P
    refine ⟨parseJsonG1_env hk hall, ?_⟩
    refine subDocker_nofire_head (c := c) (t := k' ++ '=' :: P) ?_ (class_ne_char hc (by decide))
    rw [List.cons_append, List.dropWhile_cons, env_not_ws hc]
    rfl
  unfold normalize_core
  rw [h1, tails_env hkeq]
  rw [subJsonStr_of_parse_none (hnofire (kindPH (c :: k'))).1,
    subJsonNum_of_parse_none (hnofire (kindPH (c :: k'))).1,
    (hnofire (kindPH (c :: k'))).2]

/-- Each kind placeholder ends in `>`. -/
theorem kindPH_last (k : List Char) : (kindPH k).getLast? = some '>' := by
  unfold kindPH
  split_ifs <;> decide

/-- Strip of an assignment line keeps the key and `=` and right-strips the
value. -/
theorem strip_env_shape {k v : List Char} (hk : k ≠ [])
    (hall : ∀ c ∈ k, isEnvKeyChar c = true) :
    strip (k ++ '=' :: v) = k ++ '=' :: rstrip v := by
  unfold strip
  have hh : NoWsHead (k ++ '=' :: v) := by
    intro c hc
    cases k with
    | nil => exact absurd rfl hk
    | cons d k' =>
      injection hc with hc
      rw [← hc]
      exact env_not_ws (hall d (List.mem_cons_self d k'))
  rw [lstrip_eq_self hh, rstrip_append_cons (by decide) k v]

/-- `normalize_line` on an environment assignment. -/
theorem normalize_env_shape {k v : List Char} (hk : k ≠ [])
    (hall : ∀ c ∈ k, isEnvKeyChar c = true) :
    normalize_line (k ++ '=' :: v) = k ++ '=' :: kindPH k := by
  rw [normalize_line_eq_core, strip_env_shape hk hall, core_env_shape hk hall]

/-- The assignment-shape output of `normalize_line` is already stripped. -/
theorem stripped_env_out {k : List Char} (hk : k ≠ [])
    (hall : ∀ c ∈ k, isEnvKeyChar c = true) :
    strip (k ++ '=' :: kindPH k) = k ++ '=' :: kindPH k := by
  apply strip_eq_self
  · intro c hc
    cases k with
    | nil => exact absurd rfl hk
    | cons d k' =>
      injection hc with hc
      rw [← hc]
      exact env_not_ws (hall d (List.mem_cons_self d k'))
  · intro c hc
    rw [show k ++ '=' :: kindPH k = (k ++ ['=']) ++ kindPH k by simp,
      getLast?_of_suffix_ne_nil (List.suffix_append _ _) ?hne, kindPH_last] at hc
    case hne =>
      intro hnil
      have := kindPH_last k
      rw [hnil] at this
      cases this
    injection hc with hc
    rw [← hc]
    rfl

/-- Idempotence of `normalize_line` on environment assignments (second
application reproduces the kind placeholder). -/
theorem normalize_env_idem {k : List Char} (hk : k ≠ [])
    (hall : ∀ c ∈ k, isEnvKeyChar c = true) :
    normalize_line (k ++ '=' :: kindPH k) = k ++ '=' :: kindPH k := by
  rw [normalize_line_eq_core, stripped_env_out hk hall, core_env_shape hk hall]

/-- Claim C4: for an assignment line whose key ends in `_SECRET`, `_KEY`,
`_TOKEN` or `_PASSWORD`, the normalized form is the key, `=`, and the
kind-specific placeholder — the generic `<VALUE>` never survives — and
Scenario A (parent `DB_PASSWORD=s3cr3t`, template `DB_PASSWORD=placeholder`)
yields zero missing lines. -/
theorem C4_secret_suffix_placeholders :
    (∀ k v : List Char, k ≠ [] → k.all isEnvKeyChar = true →
      (bSECRET.isSuffixOf k = true →
        normalize_line (k ++ '=' :: v) = k ++ '=' :: secretPH) ∧
      (bKEY.isSuffixOf k = true →
        normalize_line (k ++ '=' :: v) = k ++ '=' :: keyPH) ∧
      (bTOKEN.isSuffixOf k = true →
        normalize_line (k ++ '=' :: v) = k ++ '=' :: tokenPH) ∧
      (bPASSWORD.isSuffixOf k = true →
        normalize_line (k ++ '=' :: v) = k ++ '=' :: passwordPH)) ∧
    find_missing_lines [ "DB_PASSWORD=placeholder\n".toList]
      [ "DB_PASSWORD=s3cr3t\n".toList] = [] := by
  constructor
  · intro k v hk hall
    have hall' : ∀ c ∈ k, isEnvKeyChar c = true := List.all_eq_true.1 hall
    refine ⟨?_, ?_, ?_, ?_⟩ <;> intro hsfx <;>
      rw [normalize_env_shape hk hall'] <;> unfold kindPH
    · rw [if_pos hsfx]
    · have e1 : bSECRET.isSuffixOf k = false :=
        marker_excl (List.isSuffixOf_iff_suffix.1 hsfx) (by decide) (by decide)
      rw [if_neg (by rw [e1]; simp), if_pos hsfx]
    · have e1 : bSECRET.isSuffixOf k = false :=
        marker_excl (List.isSuffixOf_iff_suffix.1 hsfx) (by decide) (by decide)
      have e2 : bKEY.isSuffixOf k = false :=
        marker_excl (List.isSuffixOf_iff_suffix.1 hsfx) (by decide) (by decide)
      rw [if_neg (by rw [e1]; simp), if_neg (by rw [e2]; simp), if_pos hsfx]
    · have e1 : bSECRET.isSuffixOf k = false :=
        marker_excl (List.isSuffixOf_iff_suffix.1 hsfx) (by decide) (by decide)
      have e2 : bKEY.isSuffixOf k = false :=
        marker_excl (List.isSuffixOf_iff_suffix.1 hsfx) (by decide) (by decide)
      have e3 : bTOKEN.isSuffixOf k = false :=
        marker_excl (List.isSuffixOf_iff_suffix.1 hsfx) (by decide) (by decide)
      rw [if_neg (by rw [e1]; simp), if_neg (by rw [e2]; simp),
        if_neg (by rw [e3]; simp), if_pos hsfx]
  · decide

/-- Witness for C4 at the concrete key `DB_PASSWORD`. -/
theorem C4_witness :
    normalize_line ( "DB_PASSWORD".toList ++ '=' :: "s3cr3t".toList) =
      "DB_PASSWORD".toList ++ '=' :: passwordPH :=
  (C4_secret_suffix_placeholders.1 ( "DB_PASSWORD".toList) ( "s3cr3t".toList)
    (by decide) (by decide)).2.2.2 (by decide)

/-- Witness for C10 at the concrete filename `x.env.template` (which
matches two inclusion patterns). -/
theorem C10_witness :
    (find_template_files [] [(([] : List Char), [ "x.env.template".toList])]).count
        (joinRel [] ( "x.env.template".toList)) =
      (TEMPLATE_PATTERNS.filter (fun pat => globMatch pat ( "x.env.template".toList))).length :=
  C10_per_pattern_duplicates.1 [] ( "x.env.template".toList) [] (by decide)

/-- A character surviving at the head of `dropWhile p` refutes `p`. -/
theorem head?_dropWhile_false {p : Char → Bool} :
    ∀ (l : List Char) {c : Char}, (l.dropWhile p).head? = some c → p c = false := by
  intro l
  induction l with
  | nil => intro c h; cases h
  | cons d t ih =>
    intro c h
    cases hd : p d
    · rw [List.dropWhile_cons] at h
      simp only [hd, Bool.false_eq_true, if_false] at h
      injection h with h
      rw [← h]
      exact hd
    · rw [List.dropWhile_cons] at h
      simp only [hd, if_true] at h
      exact ih h

/-- `takeWhile` keeps a fully-satisfying list. -/
theorem takeWhile_of_all {p : Char → Bool} :
    ∀ (x : List Char), (∀ c ∈ x, p c = true) → x.takeWhile p = x := by
  intro x
  induction x with
  | nil => intro _; rfl
  | cons d t ih =>
    intro hall
    rw [List.takeWhile_cons, hall d (List.mem_cons_self d t)]
    simp only [if_true]
    rw [ih (fun e he => hall e (List.mem_cons_of_mem _ he))]

/-- `dropWhile` erases a fully-satisfying list. -/
theorem dropWhile_of_all {p : Char → Bool} (x : List Char)
    (h : ∀ c ∈ x, p c = true) : x.dropWhile p = [] := by
  have := dropWhile_append_all x h []
  rwa [List.append_nil] at this

/-- `head?` of an append with nonempty first part. -/
theorem head?_append_left {a : List Char} (h : a ≠ []) (b : List Char) :
    (a ++ b).head? = a.head? := by
  cases a with
  | nil => exact absurd rfl h
  | cons c t => rfl

/-- A whitespace character is not a JSON key character. -/
theorem ws_not_jsonkey {c : Char} (h : isPySpace c = true) : isJsonKeyChar c = false := by
  cases hj : isJsonKeyChar c
  · rfl
  · rw [jsonkey_not_ws hj] at h
    cases h

theorem parseJsonG1_nil {l : List Char} (h : l.dropWhile isPySpace = []) :
    parseJsonG1 l = none := by
  unfold parseJsonG1
  rw [h]
  rfl

/-- Full evaluation of `parseJsonG1` on a line decomposed as whitespace,
optional quote, nonempty key run, optional quote and remainder `Z`: the
parse succeeds exactly when a colon follows the whitespace after the
(optional) closing quote. -/
theorem parse_eval_shape {w1 q1 k q2 Z : List Char}
    (hw1 : ∀ c ∈ w1, isPySpace c = true)
    (hq1 : q1 = [] ∨ q1 = ['"'])
    (hk : k ≠ []) (hkall : ∀ c ∈ k, isJsonKeyChar c = true)
    (hq2 : q2 = ['"'] ∨
      (q2 = [] ∧ ∀ c, Z.head? = some c → isJsonKeyChar c = false ∧ c ≠ '"')) :
    parseJsonG1 (w1 ++ (q1 ++ (k ++ (q2 ++ Z)))) =
      match Z.dropWhile isPySpace with
      | ':' :: r6 =>
        some (w1 ++ q1 ++ k ++ q2 ++ Z.takeWhile isPySpace ++ ':' :: r6.takeWhile isPySpace,
          r6.dropWhile isPySpace)
      | _ => none := by
  obtain ⟨c, k', rfl⟩ : ∃ c k', k = c :: k' := by
    cases k with
    | nil => exact absurd rfl hk
    | cons c k' => exact ⟨c, k', rfl⟩
  have hcj := hkall c (List.mem_cons_self c k')
  have hcw : isPySpace c = false := jsonkey_not_ws hcj
  have hcq : c ≠ '"' := class_ne_char hcj (by decide)
  rcases hq1 with rfl | rfl
  · rw [show w1 ++ (([] : List Char) ++ ((c :: k') ++ (q2 ++ Z))) =
      w1 ++ c :: (k' ++ (q2 ++ Z)) from rfl]
    unfold parseJsonG1
    rw [takeWhile_append_of_all w1 hw1 hcw _, dropWhile_append_of_all w1 hw1 hcw _]
    dsimp only
    have hm1 : (match c :: (k' ++ (q2 ++ Z)) with
        | '"' :: _ => (['"'] : List Char)
        | _ => []) = [] := by
      split
      next heq =>
        exfalso
        injection heq with h0 _
        exact hcq h0
      next => rfl
    have hm2 : (match c :: (k' ++ (q2 ++ Z)) with
        | '"' :: t => t
        | _ => c :: (k' ++ (q2 ++ Z))) = c :: (k' ++ (q2 ++ Z)) := by
      split
      next heq =>
        exfalso
        injection heq with h0 _
        exact hcq h0
      next => rfl
    rw [hm1, hm2]
    rcases hq2 with rfl | ⟨rfl, hZh⟩
    · rw [show c :: (k' ++ ((['"'] : List Char) ++ Z)) = (c :: k') ++ '"' :: Z from rfl]
      rw [takeWhile_append_of_all (c :: k') hkall (by decide) Z,
        dropWhile_append_of_all (c :: k') hkall (by decide) Z]
      rw [show (c :: k').isEmpty = false from rfl]
      simp only [Bool.false_eq_true, if_false]
    · simp only [List.nil_append]
      cases Z with
      | nil =>
        simp only [List.append_nil]
        rw [takeWhile_of_all (c :: k') hkall, dropWhile_of_all (c :: k') hkall]
        rw [show (c :: k').isEmpty = false from rfl]
        simp only [Bool.false_eq_true, if_false]
        rfl
      | cons d Z' =>
        obtain ⟨hdk, hdq⟩ := hZh d rfl
        rw [show c :: (k' ++ d :: Z') = (c :: k') ++ d :: Z' from rfl]
        rw [takeWhile_append_of_all (c :: k') hkall hdk Z',
          dropWhile_append_of_all (c :: k') hkall hdk Z']
        rw [show (c :: k').isEmpty = false from rfl]
        simp only [Bool.false_eq_true, if_false]
        have hm3 : (match d :: Z' with
            | '"' :: _ => (['"'] : List Char)
            | _ => []) = [] := by
          split
          next heq =>
            exfalso
            injection heq with h0 _
            exact hdq h0
          next => rfl
        have hm4 : (match d :: Z' with
            | '"' :: t => t
            | _ => d :: Z') = d :: Z' := by
          split
          next heq =>
            exfalso
            injection heq with h0 _
            exact hdq h0
          next => rfl
        rw [hm3, hm4]
  · rw [show w1 ++ ((['"'] : List Char) ++ ((c :: k') ++ (q2 ++ Z))) =
      w1 ++ '"' :: ((c :: k') ++ (q2 ++ Z)) from rfl]
    unfold parseJsonG1
    rw [takeWhile_append_of_all w1 hw1 (by decide) _,
      dropWhile_append_of_all w1 hw1 (by decide) _]
    dsimp only
    rw [show (match '"' :: ((c :: k') ++ (q2 ++ Z)) with
        | '"' :: _ => (['"'] : List Char)
        | _ => []) = ['"'] from rfl]
    rw [show (match '"' :: ((c :: k') ++ (q2 ++ Z)) with
        | '"' :: t => t
        | _ => '"' :: ((c :: k') ++ (q2 ++ Z))) = (c :: k') ++ (q2 ++ Z) from rfl]
    rcases hq2 with rfl | ⟨rfl, hZh⟩
    · rw [show (c :: k') ++ ((['"'] : List Char) ++ Z) = (c :: k') ++ '"' :: Z from rfl]
      rw [takeWhile_append_of_all (c :: k') hkall (by decide) Z,
        dropWhile_append_of_all (c :: k') hkall (by decide) Z]
      rw [show (c :: k').isEmpty = false from rfl]
      simp only [Bool.false_eq_true, if_false]
    · simp only [List.nil_append]
      cases Z with
      | nil =>
        simp only [List.append_nil]
        rw [takeWhile_of_all (c :: k') hkall, dropWhile_of_all (c :: k') hkall]
        rw [show (c :: k').isEmpty = false from rfl]
        simp only [Bool.false_eq_true, if_false]
        rfl
      | cons d Z' =>
        obtain ⟨hdk, hdq⟩ := hZh d rfl
        rw [takeWhile_append_of_all (c :: k') hkall hdk Z',
          dropWhile_append_of_all (c :: k') hkall hdk Z']
        rw [show (c :: k').isEmpty = false from rfl]
        simp only [Bool.false_eq_true, if_false]
        have hm3 : (match d :: Z' with
            | '"' :: _ => (['"'] : List Char)
            | _ => []) = [] := by
          split
          next heq =>
            exfalso
            injection heq with h0 _
            exact hdq h0
          next => rfl
        have hm4 : (match d :: Z' with
            | '"' :: t => t
            | _ => d :: Z') = d :: Z' := by
          split
          next heq =>
            exfalso
            injection heq with h0 _
            exact hdq h0
          next => rfl
        rw [hm3, hm4]

/-- Successful evaluation of `parseJsonG1` on a fully decomposed line. -/
theorem parse_build {w1 q1 k q2 w2 w3 r : List Char}
    (hw1 : ∀ c ∈ w1, isPySpace c = true)
    (hq1 : q1 = [] ∨ q1 = ['"'])
    (hk : k ≠ []) (hkall : ∀ c ∈ k, isJsonKeyChar c = true)
    (hq2 : q2 = ['"'] ∨
      (q2 = [] ∧ ∀ c, (w2 ++ ':' :: (w3 ++ r)).head? = some c →
        isJsonKeyChar c = false ∧ c ≠ '"'))
    (hw2 : ∀ c ∈ w2, isPySpace c = true) (hw3 : ∀ c ∈ w3, isPySpace c = true)
    (hr : NoWsHead r) :
    parseJsonG1 (w1 ++ (q1 ++ (k ++ (q2 ++ (w2 ++ ':' :: (w3 ++ r)))))) =
      some (w1 ++ q1 ++ k ++ q2 ++ w2 ++ ':' :: w3, r) := by
  have hdz : (w2 ++ ':' :: (w3 ++ r)).dropWhile isPySpace = ':' :: (w3 ++ r) :=
    dropWhile_append_of_all w2 hw2 (by decide) _
  have htz : (w2 ++ ':' :: (w3 ++ r)).takeWhile isPySpace = w2 :=
    takeWhile_append_of_all w2 hw2 (by decide) _
  have ht3 : (w3 ++ r).takeWhile isPySpace = w3 := by
    cases r with
    | nil => rw [List.append_nil]; exact takeWhile_of_all w3 hw3
    | cons c r' => exact takeWhile_append_of_all w3 hw3 (hr c rfl) r'
  have hd3 : (w3 ++ r).dropWhile isPySpace = r := by
    cases r with
    | nil => rw [List.append_nil]; exact dropWhile_of_all w3 hw3
    | cons c r' => exact dropWhile_append_of_all w3 hw3 (hr c rfl) r'
  rw [parse_eval_shape hw1 hq1 hk hkall hq2, hdz]
  rw [show (match ':' :: (w3 ++ r) with
      | ':' :: r6 =>
        some (w1 ++ q1 ++ k ++ q2 ++ (w2 ++ ':' :: (w3 ++ r)).takeWhile isPySpace ++
          ':' :: r6.takeWhile isPySpace, r6.dropWhile isPySpace)
      | _ => none) =
      some (w1 ++ q1 ++ k ++ q2 ++ (w2 ++ ':' :: (w3 ++ r)).takeWhile isPySpace ++
        ':' :: (w3 ++ r).takeWhile isPySpace, (w3 ++ r).dropWhile isPySpace) from rfl]
  rw [htz, ht3, hd3]

theorem parseJsonG1_quote_nokey {l t : List Char}
    (hd : l.dropWhile isPySpace = '"' :: t)
    (ht : (t.takeWhile isJsonKeyChar).isEmpty = true) : parseJsonG1 l = none := by
  unfold parseJsonG1
  rw [hd]
  dsimp only
  rw [show (match '"' :: t with
      | '"' :: t' => t'
      | _ => '"' :: t) = t from rfl]
  rw [ht]
  rfl

/-- Inversion of a successful parse once the line is in decomposed form:
the remainder `Z` must consist of whitespace, colon, whitespace and the
returned rest. -/
theorem parse_split_from_shape {l w1 q1 k q2 Z g1 r : List Char}
    (hleq : l = w1 ++ (q1 ++ (k ++ (q2 ++ Z))))
    (hw1 : ∀ c ∈ w1, isPySpace c = true) (hq1 : q1 = [] ∨ q1 = ['"'])
    (hk : k ≠ []) (hkall : ∀ c ∈ k, isJsonKeyChar c = true)
    (hq2 : q2 = ['"'] ∨
      (q2 = [] ∧ ∀ c, Z.head? = some c → isJsonKeyChar c = false ∧ c ≠ '"'))
    (h : parseJsonG1 l = some (g1, r)) :
    ∃ w2 w3, Z = w2 ++ ':' :: (w3 ++ r) ∧
      g1 = w1 ++ q1 ++ k ++ q2 ++ w2 ++ ':' :: w3 ∧
      (∀ c ∈ w2, isPySpace c = true) ∧ (∀ c ∈ w3, isPySpace c = true) ∧
      NoWsHead r := by
  subst hleq
  have heval := parse_eval_shape hw1 hq1 hk hkall hq2
  cases hdz : Z.dropWhile isPySpace with
  | nil =>
    rw [hdz] at heval
    rw [heval.trans rfl] at h
    cases h
  | cons c5 r6 =>
    by_cases hc5 : c5 = ':'
    · subst hc5
      rw [hdz] at heval
      have hsome : parseJsonG1 (w1 ++ (q1 ++ (k ++ (q2 ++ Z)))) =
          some (w1 ++ q1 ++ k ++ q2 ++ Z.takeWhile isPySpace ++
            ':' :: r6.takeWhile isPySpace, r6.dropWhile isPySpace) := heval.trans rfl
      rw [hsome] at h
      injection h with h
      injection h with hg hrr
      have h6 : r6 = r6.takeWhile isPySpace ++ r := by
        conv_lhs => rw [← List.takeWhile_append_dropWhile (p := isPySpace) (l := r6)]
        rw [hrr]
      refine ⟨Z.takeWhile isPySpace, r6.takeWhile isPySpace, ?_, hg.symm,
        fun c hc => List.mem_takeWhile_imp hc,
        fun c hc => List.mem_takeWhile_imp hc, ?_⟩
      · conv_lhs => rw [← List.takeWhile_append_dropWhile (p := isPySpace) (l := Z)]
        rw [hdz, ← h6]
      · intro e he
        rw [← hrr] at he
        exact head?_dropWhile_false r6 he
    · rw [hdz] at heval
      have hm : (match c5 :: r6 with
          | ':' :: r7 =>
            some (w1 ++ q1 ++ k ++ q2 ++ Z.takeWhile isPySpace ++
              ':' :: r7.takeWhile isPySpace, r7.dropWhile isPySpace)
          | _ => none) = none := by
        split
        next heq =>
          exfalso
          injection heq with h0 _
          exact hc5 h0
        next => rfl
      rw [heval.trans hm] at h
      cases h

/-- Decomposition of any successful JSON-key-group parse. -/
theorem parse_split {l g1 r : List Char} (h : parseJsonG1 l = some (g1, r)) :
    ∃ w1 q1 k q2 w2 w3,
      l = w1 ++ (q1 ++ (k ++ (q2 ++ (w2 ++ ':' :: (w3 ++ r))))) ∧
      g1 = w1 ++ q1 ++ k ++ q2 ++ w2 ++ ':' :: w3 ∧
      (∀ c ∈ w1, isPySpace c = true) ∧ (q1 = [] ∨ q1 = ['"']) ∧
      k ≠ [] ∧ (∀ c ∈ k, isJsonKeyChar c = true) ∧
      (q2 = ['"'] ∨ (q2 = [] ∧ ∀ c, (w2 ++ ':' :: (w3 ++ r)).head? = some c →
        isJsonKeyChar c = false ∧ c ≠ '"')) ∧
      (∀ c ∈ w2, isPySpace c = true) ∧ (∀ c ∈ w3, isPySpace c = true) ∧
      NoWsHead r := by
  cases hd1 : l.dropWhile isPySpace with
  | nil => rw [parseJsonG1_nil hd1] at h; cases h
  | cons c t =>
    have hw1 : ∀ e ∈ l.takeWhile isPySpace, isPySpace e = true :=
      fun e he => List.mem_takeWhile_imp he
    have hl : l = l.takeWhile isPySpace ++ c :: t := by
      conv_lhs => rw [← List.takeWhile_append_dropWhile (p := isPySpace) (l := l)]
      rw [hd1]
    by_cases hcq : c = '"'
    · subst hcq
      cases htk : t.takeWhile isJsonKeyChar with
      | nil =>
        rw [parseJsonG1_quote_nokey hd1 (by rw [htk]; rfl)] at h
        cases h
      | cons ck kt =>
        have hkall : ∀ e ∈ ck :: kt, isJsonKeyChar e = true := by
          intro e he
          exact List.mem_takeWhile_imp (htk ▸ he)
        have hteq : t = (ck :: kt) ++ t.dropWhile isJsonKeyChar := by
          conv_lhs => rw [← List.takeWhile_append_dropWhile (p := isJsonKeyChar) (l := t)]
          rw [htk]
        cases hr3 : t.dropWhile isJsonKeyChar with
        | nil =>
          have hleq : l = l.takeWhile isPySpace ++
              ((['"'] : List Char) ++ ((ck :: kt) ++ (([] : List Char) ++ ([] : List Char)))) := by
            conv_lhs => rw [hl, hteq, hr3]
            rfl
          obtain ⟨w2, w3, hZ, -, -, -, -⟩ :=
            parse_split_from_shape hleq hw1 (Or.inr rfl) (by simp) hkall
              (Or.inr ⟨rfl, by intro e he; cases he⟩) h
          exact absurd hZ.symm (by simp)
        | cons d r3' =>
          have hdk : isJsonKeyChar d = false := head?_dropWhile_false t (by rw [hr3]; rfl)
          by_cases hdq : d = '"'
          · subst hdq
            have hleq : l = l.takeWhile isPySpace ++
                ((['"'] : List Char) ++ ((ck :: kt) ++ ((['"'] : List Char) ++ r3'))) := by
              conv_lhs => rw [hl, hteq, hr3]
              rfl
            obtain ⟨w2, w3, hZ, hg, hw2, hw3, hnr⟩ :=
              parse_split_from_shape hleq hw1 (Or.inr rfl) (by simp) hkall (Or.inl rfl) h
            exact ⟨l.takeWhile isPySpace, ['"'], ck :: kt, ['"'], w2, w3,
              by rw [hZ] at hleq; exact hleq, hg, hw1, Or.inr rfl, by simp, hkall, Or.inl rfl, hw2, hw3, hnr⟩
          · have hleq : l = l.takeWhile isPySpace ++
                ((['"'] : List Char) ++ ((ck :: kt) ++ (([] : List Char) ++ (d :: r3')))) := by
              conv_lhs => rw [hl, hteq, hr3]
              rfl
            have hhead : ∀ e, (d :: r3').head? = some e →
                isJsonKeyChar e = false ∧ e ≠ '"' := by
              intro e he
              injection he with he
              subst he
              exact ⟨hdk, hdq⟩
            obtain ⟨w2, w3, hZ, hg, hw2, hw3, hnr⟩ :=
              parse_split_from_shape hleq hw1 (Or.inr rfl) (by simp) hkall
                (Or.inr ⟨rfl, hhead⟩) h
            refine ⟨l.takeWhile isPySpace, ['"'], ck :: kt, [], w2, w3,
              by rw [hZ] at hleq; exact hleq, hg, hw1, Or.inr rfl, by simp, hkall,
              Or.inr ⟨rfl, ?_⟩, hw2, hw3, hnr⟩
            intro e he
            rw [← hZ] at he
            exact hhead e he
    · cases hcj : isJsonKeyChar c with
      | false =>
        rw [parseJsonG1_nonkey hd1 hcq hcj] at h
        cases h
      | true =>
        have hkall : ∀ e ∈ c :: t.takeWhile isJsonKeyChar, isJsonKeyChar e = true := by
          intro e he
          rcases List.mem_cons.1 he with rfl | he'
          · exact hcj
          · exact List.mem_takeWhile_imp he'
        have hteq : c :: t = (c :: t.takeWhile isJsonKeyChar) ++ t.dropWhile isJsonKeyChar := by
          rw [List.cons_append]
          congr 1
          conv_lhs => rw [← List.takeWhile_append_dropWhile (p := isJsonKeyChar) (l := t)]
        cases hr3 : t.dropWhile isJsonKeyChar with
        | nil =>
          have hleq : l = l.takeWhile isPySpace ++
              (([] : List Char) ++ ((c :: t.takeWhile isJsonKeyChar) ++
                (([] : List Char) ++ ([] : List Char)))) := by
            conv_lhs => rw [hl, hteq, hr3]
            rfl
          obtain ⟨w2, w3, hZ, -, -, -, -⟩ :=
            parse_split_from_shape hleq hw1 (Or.inl rfl) (by simp) hkall
              (Or.inr ⟨rfl, by intro e he; cases he⟩) h
          exact absurd hZ.symm (by simp)
        | cons d r3' =>
          have hdk : isJsonKeyChar d = false := head?_dropWhile_false t (by rw [hr3]; rfl)
          by_cases hdq : d = '"'
          · subst hdq
            have hleq : l = l.takeWhile isPySpace ++
                (([] : List Char) ++ ((c :: t.takeWhile isJsonKeyChar) ++
                  ((['"'] : List Char) ++ r3'))) := by
              conv_lhs => rw [hl, hteq, hr3]
              rfl
            obtain ⟨w2, w3, hZ, hg, hw2, hw3, hnr⟩ :=
              parse_split_from_shape hleq hw1 (Or.inl rfl) (by simp) hkall (Or.inl rfl) h
            exact ⟨l.takeWhile isPySpace, [], c :: t.takeWhile isJsonKeyChar, ['"'], w2, w3,
              by rw [hZ] at hleq; exact hleq, hg, hw1, Or.inl rfl, by simp, hkall, Or.inl rfl, hw2, hw3, hnr⟩
          · have hleq : l = l.takeWhile isPySpace ++
                (([] : List Char) ++ ((c :: t.takeWhile isJsonKeyChar) ++
                  (([] : List Char) ++ (d :: r3')))) := by
              conv_lhs => rw [hl, hteq, hr3]
              rfl
            have hhead : ∀ e, (d :: r3').head? = some e →
                isJsonKeyChar e = false ∧ e ≠ '"' := by
              intro e he
              injection he with he
              subst he
              exact ⟨hdk, hdq⟩
            obtain ⟨w2, w3, hZ, hg, hw2, hw3, hnr⟩ :=
              parse_split_from_shape hleq hw1 (Or.inl rfl) (by simp) hkall
                (Or.inr ⟨rfl, hhead⟩) h
            refine ⟨l.takeWhile isPySpace, [], c :: t.takeWhile isJsonKeyChar, [], w2, w3,
              by rw [hZ] at hleq; exact hleq, hg, hw1, Or.inl rfl, by simp, hkall,
              Or.inr ⟨rfl, ?_⟩, hw2, hw3, hnr⟩
            intro e he
            rw [← hZ] at he
            exact hhead e he

theorem subJsonStr_fire {l g1 v t : List Char}
    (hp : parseJsonG1 l = some (g1, '"' :: (v ++ '"' :: t)))
    (hv : ∀ c ∈ v, (c != '"') = true) :
    subJsonStr l = g1 ++ '"' :: valuePH ++ '"' :: t := by
  unfold subJsonStr
  rw [hp]
  show (match List.dropWhile (fun c => c != '"') (v ++ '"' :: t) with
      | '"' :: tail => g1 ++ '"' :: valuePH ++ '"' :: tail
      | _ => l) = g1 ++ '"' :: valuePH ++ '"' :: t
  rw [dropWhile_append_of_all v hv (by decide) t]
  rfl

theorem subJsonStr_nofire_rest {l g1 : List Char} {c : Char} {R : List Char}
    (hp : parseJsonG1 l = some (g1, c :: R)) (hc : c ≠ '"') : subJsonStr l = l := by
  unfold subJsonStr
  rw [hp]
  dsimp only
  split
  next heq =>
    exfalso
    injection heq with h0 _
    exact hc h0
  next => rfl

theorem subJsonStr_nofire_nil {l g1 : List Char}
    (hp : parseJsonG1 l = some (g1, [])) : subJsonStr l = l := by
  unfold subJsonStr
  rw [hp]

theorem subJsonStr_nofire_noclose {l g1 r : List Char}
    (hp : parseJsonG1 l = some (g1, '"' :: r))
    (hd : r.dropWhile (fun c => c != '"') = []) : subJsonStr l = l := by
  unfold subJsonStr
  rw [hp]
  show (match List.dropWhile (fun c => c != '"') r with
      | '"' :: tail => g1 ++ '"' :: valuePH ++ '"' :: tail
      | _ => l) = l
  rw [hd]

theorem subJsonNum_fire {l g1 rest : List Char}
    (hp : parseJsonG1 l = some (g1, rest))
    (hne : (rest.takeWhile isDigitChar).isEmpty = false) :
    subJsonNum l = g1 ++ numberPH ++ rest.dropWhile isDigitChar := by
  unfold subJsonNum
  rw [hp]
  dsimp only
  rw [hne]
  simp only [Bool.false_eq_true, if_false]

theorem subJsonNum_nofire {l g1 : List Char} {c : Char} {R : List Char}
    (hp : parseJsonG1 l = some (g1, c :: R)) (hc : isDigitChar c = false) :
    subJsonNum l = l := by
  unfold subJsonNum
  rw [hp]
  dsimp only
  rw [List.takeWhile_cons, hc]
  rfl

theorem subJsonNum_nofire_nil {l g1 : List Char}
    (hp : parseJsonG1 l = some (g1, [])) : subJsonNum l = l := by
  unfold subJsonNum
  rw [hp]
  rfl

/-- Successful evaluation of `subDocker` on a decomposed docker-compose
list item. -/
theorem subDocker_build {w1 w2 S1 V : List Char}
    (hw1 : ∀ c ∈ w1, isPySpace c = true) (hw2 : ∀ c ∈ w2, isPySpace c = true)
    (hS1 : '"' ∉ S1) (hV : '"' ∉ V) (hVe : '=' ∉ V) :
    subDocker (w1 ++ '-' :: (w2 ++ '"' :: (S1 ++ '=' :: (V ++ ['"'])))) =
      w1 ++ '-' :: w2 ++ '"' :: S1 ++ '=' :: valuePH ++ ['"'] := by
  have hd1 : (w1 ++ '-' :: (w2 ++ '"' :: (S1 ++ '=' :: (V ++ ['"'])))).dropWhile isPySpace =
      '-' :: (w2 ++ '"' :: (S1 ++ '=' :: (V ++ ['"']))) :=
    dropWhile_append_of_all w1 hw1 (by decide) _
  have ht1 : (w1 ++ '-' :: (w2 ++ '"' :: (S1 ++ '=' :: (V ++ ['"'])))).takeWhile isPySpace =
      w1 := takeWhile_append_of_all w1 hw1 (by decide) _
  have hd2 : (w2 ++ '"' :: (S1 ++ '=' :: (V ++ ['"']))).dropWhile isPySpace =
      '"' :: (S1 ++ '=' :: (V ++ ['"'])) :=
    dropWhile_append_of_all w2 hw2 (by decide) _
  have ht2 : (w2 ++ '"' :: (S1 ++ '=' :: (V ++ ['"']))).takeWhile isPySpace = w2 :=
    takeWhile_append_of_all w2 hw2 (by decide) _
  have hassoc : S1 ++ '=' :: (V ++ ['"']) = (S1 ++ '=' :: V) ++ ['"'] := by simp
  have hlast : (S1 ++ '=' :: (V ++ ['"'])).getLast? = some '"' := by
    rw [hassoc]
    exact List.getLast?_concat _
  have hdl : (S1 ++ '=' :: (V ++ ['"'])).dropLast = S1 ++ '=' :: V := by
    rw [hassoc]
    exact List.dropLast_concat
  have hnq : '"' ∉ S1 ++ '=' :: V := by
    intro hmem
    rcases List.mem_append.1 hmem with h | h
    · exact hS1 h
    · rcases List.mem_cons.1 h with h | h
      · exact absurd h (by decide)
      · exact hV h
  have hcq : (S1 ++ '=' :: V).contains '"' = false := by
    cases hq : (S1 ++ '=' :: V).contains '"'
    · rfl
    · exact absurd (List.elem_iff.1 hq) hnq
  have hce : (S1 ++ '=' :: V).contains '=' = true :=
    List.elem_iff.2 (List.mem_append.2 (Or.inr (List.mem_cons_self '=' V)))
  have hrev : (S1 ++ '=' :: V).reverse = V.reverse ++ '=' :: S1.reverse := by
    rw [List.reverse_append, List.reverse_cons]
    simp [List.append_assoc]
  have hdw : (S1 ++ '=' :: V).reverse.dropWhile (fun c => c != '=') = '=' :: S1.reverse := by
    rw [hrev]
    refine dropWhile_append_of_all V.reverse ?_ (by decide) S1.reverse
    intro c hc
    exact bne_iff_ne.2 (fun he => hVe (he ▸ List.mem_reverse.1 hc))
  unfold subDocker
  rw [hd1]
  dsimp only
  split
  next heq =>
    injection heq with _ heq2
    subst heq2
    rw [hd2]
    split
    next heq3 =>
      injection heq3 with _ heq4
      subst heq4
      rw [hlast]
      have ered : ∀ (A B : List Char),
          (match (some '"' : Option Char) with
           | some '"' => A
           | _ => B) = A := fun A B => rfl
      rw [ered]
      rw [hdl, hcq, hce]
      rw [if_neg (by decide)]
      rw [hdw]
      have ered2 : ∀ (f : List Char → List Char) (B : List Char),
          (match ('=' :: S1.reverse : List Char) with
           | '=' :: s1rev => f s1rev
           | _ => B) = f S1.reverse := fun f B => rfl
      rw [ered2]
      rw [ht1, ht2, List.reverse_reverse]
    next hne => exact (hne (S1 ++ '=' :: (V ++ ['"'])) rfl).elim
  next hne => exact (hne (w2 ++ '"' :: (S1 ++ '=' :: (V ++ ['"']))) rfl).elim

/-- Complete case analysis of `subDocker`: either the rule does not fire,
or the line decomposes as a docker-compose item and the part after the
last `=` of the quoted content is replaced. -/
theorem subDocker_cases (l : List Char) :
    subDocker l = l ∨
    ∃ w1 w2 S1 S2, l = w1 ++ '-' :: (w2 ++ '"' :: (S1 ++ '=' :: (S2 ++ ['"']))) ∧
      subDocker l = w1 ++ '-' :: w2 ++ '"' :: S1 ++ '=' :: valuePH ++ ['"'] ∧
      (∀ c ∈ w1, isPySpace c = true) ∧ (∀ c ∈ w2, isPySpace c = true) ∧
      '"' ∉ S1 ∧ '"' ∉ S2 ∧ '=' ∉ S2 := by
  cases hd1 : l.dropWhile isPySpace with
  | nil =>
    left
    unfold subDocker
    rw [hd1]
  | cons c t =>
    by_cases hc : c = '-'
    · subst hc
      have hlt : l = l.takeWhile isPySpace ++ '-' :: t := by
        conv_lhs => rw [← List.takeWhile_append_dropWhile (p := isPySpace) (l := l)]
        rw [hd1]
      cases hd2 : t.dropWhile isPySpace with
      | nil =>
        left
        unfold subDocker
        rw [hd1]
        dsimp only
        split
        next heq =>
          injection heq with _ h2
          subst h2
          rw [hd2]
        next hne => exact (hne t rfl).elim
      | cons c4 t4 =>
        by_cases hc4 : c4 = '"'
        · subst hc4
          have ht2 : t = t.takeWhile isPySpace ++ '"' :: t4 := by
            conv_lhs => rw [← List.takeWhile_append_dropWhile (p := isPySpace) (l := t)]
            rw [hd2]
          cases hlast : t4.getLast? with
          | none =>
            left
            unfold subDocker
            rw [hd1]
            dsimp only
            split
            next heq =>
              injection heq with _ h2
              subst h2
              rw [hd2]
              split
              next heq2 =>
                injection heq2 with _ h4
                subst h4
                rw [hlast]
              next hne2 => exact (hne2 t4 rfl).elim
            next hne => exact (hne t rfl).elim
          | some c5 =>
            by_cases hc5 : c5 = '"'
            · subst hc5
              have ht4 : t4.dropLast ++ ['"'] = t4 :=
                List.dropLast_append_getLast? '"' (Option.mem_def.2 hlast)
              cases hcq : (t4.dropLast).contains '"' with
              | true =>
                left
                unfold subDocker
                rw [hd1]
                dsimp only
                split
                next heq =>
                  injection heq with _ h2
                  subst h2
                  rw [hd2]
                  split
                  next heq2 =>
                    injection heq2 with _ h4
                    subst h4
                    rw [hlast]
                    have ered : ∀ (A B : List Char),
                        (match (some '"' : Option Char) with
                         | some '"' => A
                         | _ => B) = A := fun A B => rfl
                    rw [ered]
                    simp [hcq]
                    intro h1 h2
                    exact absurd (List.elem_iff.1 hcq) h1
                  next hne2 => exact (hne2 t4 rfl).elim
                next hne => exact (hne t rfl).elim
              | false =>
                cases hce : (t4.dropLast).contains '=' with
                | false =>
                  left
                  unfold subDocker
                  rw [hd1]
                  dsimp only
                  split
                  next heq =>
                    injection heq with _ h2
                    subst h2
                    rw [hd2]
                    split
                    next heq2 =>
                      injection heq2 with _ h4
                      subst h4
                      rw [hlast]
                      have ered : ∀ (A B : List Char),
                          (match (some '"' : Option Char) with
                           | some '"' => A
                           | _ => B) = A := fun A B => rfl
                      rw [ered]
                      simp [hcq, hce]
                      intro h1 h2
                      have hcc : t4.dropLast.contains '=' = true := List.elem_iff.2 h2
                      rw [hce] at hcc
                      cases hcc
                    next hne2 => exact (hne2 t4 rfl).elim
                  next hne => exact (hne t rfl).elim
                | true =>
                  right
                  have hnq : '"' ∉ t4.dropLast := by
                    intro hm
                    have hcc : t4.dropLast.contains '"' = true := List.elem_iff.2 hm
                    rw [hcq] at hcc
                    cases hcc
                  have hmeme : '=' ∈ t4.dropLast := List.elem_iff.1 hce
                  have hne2 : t4.dropLast.reverse.dropWhile (fun c => c != '=') ≠ [] := by
                    intro hnil
                    have hall := List.dropWhile_eq_nil_iff.1 hnil '='
                      (List.mem_reverse.2 hmeme)
                    simp at hall
                  obtain ⟨e0, X, hdw⟩ : ∃ e0 X,
                      t4.dropLast.reverse.dropWhile (fun c => c != '=') = e0 :: X := by
                    cases hx : t4.dropLast.reverse.dropWhile (fun c => c != '=') with
                    | nil => exact absurd hx hne2
                    | cons a b => exact ⟨a, b, rfl⟩
                  have he0 : e0 = '=' := by
                    have hh := head?_dropWhile_false (p := fun c => c != '=')
                      t4.dropLast.reverse (c := e0) (by rw [hdw]; rfl)
                    have hh2 : (e0 != '=') = false := hh
                    by_contra hne3
                    rw [bne_iff_ne.2 hne3] at hh2
                    cases hh2
                  subst he0
                  have hsrev : t4.dropLast.reverse =
                      t4.dropLast.reverse.takeWhile (fun c => c != '=') ++ '=' :: X := by
                    conv_lhs => rw [← List.takeWhile_append_dropWhile
                      (p := fun c => c != '=') (l := t4.dropLast.reverse)]
                    rw [hdw]
                  have hs : t4.dropLast = X.reverse ++ '=' ::
                      (t4.dropLast.reverse.takeWhile (fun c => c != '=')).reverse := by
                    have hrr := congrArg List.reverse hsrev
                    rw [List.reverse_reverse, List.reverse_append, List.reverse_cons,
                      List.append_assoc, List.singleton_append] at hrr
                    exact hrr
                  have hX : ∀ e ∈ X.reverse, e ∈ t4.dropLast := by
                    intro e he
                    rw [hs]
                    exact List.mem_append.2 (Or.inl he)
                  have hT : ∀ e ∈ (t4.dropLast.reverse.takeWhile (fun c => c != '=')).reverse,
                      e ∈ t4.dropLast := by
                    intro e he
                    rw [hs]
                    exact List.mem_append.2 (Or.inr (List.mem_cons_of_mem _ he))
                  have hS1q : '"' ∉ X.reverse := fun hm => hnq (hX '"' hm)
                  have hS2q : '"' ∉ (t4.dropLast.reverse.takeWhile (fun c => c != '=')).reverse :=
                    fun hm => hnq (hT '"' hm)
                  have hS2e : '=' ∉ (t4.dropLast.reverse.takeWhile (fun c => c != '=')).reverse := by
                    intro hm
                    have := List.mem_takeWhile_imp (List.mem_reverse.1 hm)
                    simp at this
                  have hw1p : ∀ e ∈ l.takeWhile isPySpace, isPySpace e = true :=
                    fun e he => List.mem_takeWhile_imp he
                  have hw2p : ∀ e ∈ t.takeWhile isPySpace, isPySpace e = true :=
                    fun e he => List.mem_takeWhile_imp he
                  have hleq : l = l.takeWhile isPySpace ++ '-' :: (t.takeWhile isPySpace ++
                      '"' :: (X.reverse ++ '=' ::
                        ((t4.dropLast.reverse.takeWhile (fun c => c != '=')).reverse ++ ['"']))) := by
                    conv_lhs => rw [hlt, ht2, ← ht4, hs]
                    simp [List.append_assoc]
                  refine ⟨l.takeWhile isPySpace, t.takeWhile isPySpace, X.reverse,
                    (t4.dropLast.reverse.takeWhile (fun c => c != '=')).reverse,
                    hleq, ?_, hw1p, hw2p, hS1q, hS2q, hS2e⟩
                  conv_lhs => rw [hleq]
                  exact subDocker_build hw1p hw2p hS1q hS2q hS2e
            · left
              have ht4ne : t4 ≠ [] := by
                intro h4
                rw [h4] at hlast
                cases hlast
              have hl4 : l.getLast? = some c5 := by
                have hsuf : t4 <:+ l := List.IsSuffix.trans
                  (suffix_of_dropWhile_cons hd2) (suffix_of_dropWhile_cons hd1)
                rw [getLast?_of_suffix_ne_nil hsuf ht4ne, hlast]
              exact subDocker_nofire_last hl4 hc5
        · left
          unfold subDocker
          rw [hd1]
          dsimp only
          split
          next heq =>
            injection heq with _ h2
            subst h2
            rw [hd2]
            split
            next heq2 =>
              injection heq2 with h0 _
              exact (hc4 h0).elim
            next => rfl
          next hne => exact (hne t rfl).elim
    · left
      exact subDocker_nofire_head hd1 hc

/-- The environment/secret-suffix part of the pipeline. -/
def fStage (l : List Char) : List Char :=
  subTail mPASSWORD passwordPH (subTail mTOKEN tokenPH (subTail mKEY keyPH
    (subTail mSECRET secretPH (subEnv l))))

/-- The JSON/docker part of the pipeline. -/
def gStage (l : List Char) : List Char :=
  subDocker (subJsonNum (subJsonStr l))

theorem normalize_core_fg (l : List Char) : normalize_core l = gStage (fStage l) := rfl

/-- The first non-space character of a parse-shaped line is the quote or
the key head; in particular it is not `-`. -/
theorem shape_head {w1 q1 k : List Char}
    (hw1 : ∀ c ∈ w1, isPySpace c = true) (hq1 : q1 = [] ∨ q1 = ['"'])
    (hk : k ≠ []) (hkall : ∀ c ∈ k, isJsonKeyChar c = true)
    (X : List Char) :
    ∃ c T, (w1 ++ (q1 ++ (k ++ X))).dropWhile isPySpace = c :: T ∧
      isPySpace c = false ∧ c ≠ '-' := by
  rcases hq1 with rfl | rfl
  · obtain ⟨c0, k', rfl⟩ : ∃ c0 k', k = c0 :: k' := by
      cases k with
      | nil => exact absurd rfl hk
      | cons c0 k' => exact ⟨c0, k', rfl⟩
    have hc0 := hkall c0 (List.mem_cons_self c0 k')
    refine ⟨c0, k' ++ X, ?_, jsonkey_not_ws hc0, class_ne_char hc0 (by decide)⟩
    rw [show w1 ++ (([] : List Char) ++ ((c0 :: k') ++ X)) = w1 ++ c0 :: (k' ++ X) from rfl]
    exact dropWhile_append_of_all w1 hw1 (jsonkey_not_ws hc0) _
  · refine ⟨'"', k ++ X, ?_, by decide, by decide⟩
    rw [show w1 ++ ((['"'] : List Char) ++ (k ++ X)) = w1 ++ '"' :: (k ++ X) from rfl]
    exact dropWhile_append_of_all w1 hw1 (by decide) _

/-- The head of `w2 ++ ':' :: X` does not depend on `X`. -/
theorem head?_wcolon (w2 X Y : List Char) :
    (w2 ++ ':' :: X).head? = (w2 ++ ':' :: Y).head? := by
  cases w2 <;> rfl

/-- The optional-quote side condition only depends on the head of the
colon part, hence transfers when the rest is replaced. -/
theorem q2cond_transfer {q2 w2 w3 : List Char} {X Y : List Char}
    (h : q2 = ['"'] ∨ (q2 = [] ∧ ∀ c, (w2 ++ ':' :: (w3 ++ X)).head? = some c →
      isJsonKeyChar c = false ∧ c ≠ '"')) :
    q2 = ['"'] ∨ (q2 = [] ∧ ∀ c, (w2 ++ ':' :: (w3 ++ Y)).head? = some c →
      isJsonKeyChar c = false ∧ c ≠ '"') := by
  rcases h with h | ⟨hq, hcond⟩
  · exact Or.inl h
  · refine Or.inr ⟨hq, fun c hc => hcond c ?_⟩
    rw [head?_wcolon w2 (w3 ++ X) (w3 ++ Y)]
    exact hc

/-- The JSON/docker stage is idempotent. -/
theorem gStage_idem (w : List Char) : gStage (gStage w) = gStage w := by
  cases hp : parseJsonG1 w with
  | none =>
    have hs : subJsonStr w = w := subJsonStr_of_parse_none hp
    have hn : subJsonNum w = w := subJsonNum_of_parse_none hp
    rcases subDocker_cases w with hid | ⟨w1, w2, S1, S2, hleq, hout, hw1, hw2, hS1, hS2, hS2e⟩
    · unfold gStage
      rw [hs, hn, hid, hs, hn, hid]
    · unfold gStage
      rw [hs, hn, hout]
      have hOeq : w1 ++ '-' :: w2 ++ '"' :: S1 ++ '=' :: valuePH ++ ['"'] =
          w1 ++ '-' :: (w2 ++ '"' :: (S1 ++ '=' :: (valuePH ++ ['"']))) := by
        simp
      rw [hOeq]
      have hdO : (w1 ++ '-' :: (w2 ++ '"' :: (S1 ++ '=' :: (valuePH ++ ['"'])))).dropWhile
          isPySpace = '-' :: (w2 ++ '"' :: (S1 ++ '=' :: (valuePH ++ ['"']))) :=
        dropWhile_append_of_all w1 hw1 (by decide) _
      have hpO : parseJsonG1 (w1 ++ '-' :: (w2 ++ '"' :: (S1 ++ '=' :: (valuePH ++ ['"'])))) =
          none := parseJsonG1_nonkey hdO (by decide) (by decide)
      rw [subJsonStr_of_parse_none hpO, subJsonNum_of_parse_none hpO,
        subDocker_build hw1 hw2 hS1 (by decide) (by decide)]
      exact hOeq
  | some pr =>
    obtain ⟨g1, rest⟩ := pr
    obtain ⟨w1, q1, k, q2, w2, w3, hleq, hg, hw1, hq1, hk, hkall, hq2, hw2, hw3, hnr⟩ :=
      parse_split hp
    obtain ⟨c0, T0, hd0, hc0ws, hc0m⟩ :=
      shape_head hw1 hq1 hk hkall (q2 ++ (w2 ++ ':' :: (w3 ++ rest)))
    rw [← hleq] at hd0
    have hdoc : subDocker w = w := subDocker_nofire_head hd0 hc0m
    cases rest with
    | nil =>
      have hstr := subJsonStr_nofire_nil hp
      have hnum := subJsonNum_nofire_nil hp
      unfold gStage
      rw [hstr, hnum, hdoc, hstr, hnum, hdoc]
    | cons cr tr =>
      by_cases hcr : cr = '"'
      · subst hcr
        cases hdq : tr.dropWhile (fun c => c != '"') with
        | nil =>
          have hstr := subJsonStr_nofire_noclose hp hdq
          have hnum := subJsonNum_nofire hp (by decide)
          unfold gStage
          rw [hstr, hnum, hdoc, hstr, hnum, hdoc]
        | cons c2 tail =>
          have hc2 : c2 = '"' := by
            have hh := head?_dropWhile_false (p := fun c => c != '"') tr (c := c2)
              (by rw [hdq]; rfl)
            have hh2 : (c2 != '"') = false := hh
            by_contra hne
            rw [bne_iff_ne.2 hne] at hh2
            cases hh2
          subst hc2
          have htr : tr = tr.takeWhile (fun c => c != '"') ++ '"' :: tail := by
            conv_lhs => rw [← List.takeWhile_append_dropWhile
              (p := fun c => c != '"') (l := tr)]
            rw [hdq]
          have hv : ∀ c ∈ tr.takeWhile (fun c => c != '"'), (c != '"') = true := by
            intro c hc
            have hb := List.mem_takeWhile_imp hc
            exact hb
          have hp' : parseJsonG1 w =
              some (g1, '"' :: (tr.takeWhile (fun c => c != '"') ++ '"' :: tail)) := by
            rw [← htr]
            exact hp
          have hstr := subJsonStr_fire hp' hv
          have hO1 : g1 ++ '"' :: valuePH ++ '"' :: tail =
              w1 ++ (q1 ++ (k ++ (q2 ++ (w2 ++ ':' ::
                (w3 ++ ('"' :: (valuePH ++ '"' :: tail))))))) := by
            rw [hg]
            simp [List.append_assoc]
          have hq2' := q2cond_transfer (Y := '"' :: (valuePH ++ '"' :: tail)) hq2
          have hpO1 : parseJsonG1 (g1 ++ '"' :: valuePH ++ '"' :: tail) =
              some (g1, '"' :: (valuePH ++ '"' :: tail)) := by
            rw [hO1, hg]
            exact parse_build hw1 hq1 hk hkall hq2' hw2 hw3
              (by intro c hc; injection hc with hc; rw [← hc]; rfl)
          have hnum1 : subJsonNum (g1 ++ '"' :: valuePH ++ '"' :: tail) =
              g1 ++ '"' :: valuePH ++ '"' :: tail := subJsonNum_nofire hpO1 (by decide)
          obtain ⟨c1, T1, hd1, hc1ws, hc1m⟩ :=
            shape_head hw1 hq1 hk hkall (q2 ++ (w2 ++ ':' ::
              (w3 ++ ('"' :: (valuePH ++ '"' :: tail)))))
          rw [← hO1] at hd1
          have hdoc1 : subDocker (g1 ++ '"' :: valuePH ++ '"' :: tail) =
              g1 ++ '"' :: valuePH ++ '"' :: tail := subDocker_nofire_head hd1 hc1m
          have hstr1 : subJsonStr (g1 ++ '"' :: valuePH ++ '"' :: tail) =
              g1 ++ '"' :: valuePH ++ '"' :: tail := subJsonStr_fire hpO1 (by decide)
          unfold gStage
          rw [hstr, hnum1, hdoc1, hstr1, hnum1, hdoc1]
      · have hstr := subJsonStr_nofire_rest hp hcr
        cases hdg : isDigitChar cr with
        | false =>
          have hnum := subJsonNum_nofire hp hdg
          unfold gStage
          rw [hstr, hnum, hdoc, hstr, hnum, hdoc]
        | true =>
          have hne : ((cr :: tr).takeWhile isDigitChar).isEmpty = false := by
            rw [List.takeWhile_cons, hdg]
            rfl
          have hnum := subJsonNum_fire hp hne
          have hO1 : g1 ++ numberPH ++ (cr :: tr).dropWhile isDigitChar =
              w1 ++ (q1 ++ (k ++ (q2 ++ (w2 ++ ':' ::
                (w3 ++ (numberPH ++ (cr :: tr).dropWhile isDigitChar)))))) := by
            rw [hg]
            simp [List.append_assoc]
          have hq2' := q2cond_transfer
            (Y := numberPH ++ (cr :: tr).dropWhile isDigitChar) hq2
          have hpO1 : parseJsonG1 (g1 ++ numberPH ++ (cr :: tr).dropWhile isDigitChar) =
              some (g1, numberPH ++ (cr :: tr).dropWhile isDigitChar) := by
            rw [hO1, hg]
            refine parse_build hw1 hq1 hk hkall hq2' hw2 hw3 ?_
            intro c hc
            rw [show (numberPH ++ (cr :: tr).dropWhile isDigitChar).head? = some '<' from rfl]
              at hc
            injection hc with hc
            rw [← hc]
            rfl
          have hpO1c : parseJsonG1 (g1 ++ numberPH ++ (cr :: tr).dropWhile isDigitChar) =
              some (g1, '<' :: ( "NUMBER>".toList ++ (cr :: tr).dropWhile isDigitChar)) := by
            rw [hpO1]
            rfl
          have hstr1 := subJsonStr_nofire_rest hpO1c (by decide)
          have hnum1 := subJsonNum_nofire hpO1c (by decide)
          obtain ⟨c1, T1, hd1, hc1ws, hc1m⟩ :=
            shape_head hw1 hq1 hk hkall (q2 ++ (w2 ++ ':' ::
              (w3 ++ (numberPH ++ (cr :: tr).dropWhile isDigitChar))))
          rw [← hO1] at hd1
          have hdoc1 : subDocker (g1 ++ numberPH ++ (cr :: tr).dropWhile isDigitChar) =
              g1 ++ numberPH ++ (cr :: tr).dropWhile isDigitChar :=
            subDocker_nofire_head hd1 hc1m
          unfold gStage
          rw [hstr, hnum, hdoc1, hstr1, hnum1, hdoc1]

/-- Total number of occurrences of the four secret-suffix markers. -/
def markerCount (l : List Char) : Nat :=
  (occEnds mSECRET l).length + (occEnds mKEY l).length +
    (occEnds mTOKEN l).length + (occEnds mPASSWORD l).length

theorem subTail_single {pat ph l : List Char} {j : Nat}
    (h : occEnds pat l = [j]) : subTail pat ph l = l.take j ++ ph := by
  unfold subTail
  rw [h]
  rfl

theorem subTail_none {pat ph l : List Char}
    (h : occEnds pat l = []) : subTail pat ph l = l := by
  unfold subTail
  rw [h]
  rfl

/-- A line already ending in the placeholder, with the marker left of it,
is a fixed point of its `subTail` rule. -/
theorem subTail_fixpoint {s ph W : List Char} (hocc : (s ++ ['=']) <:+ W)
    (hph : '=' ∉ ph) : subTail (s ++ ['=']) ph (W ++ ph) = W ++ ph := by
  have hres := @subTail_eq_of_max (s ++ ['=']) ph (W ++ ph) W.length ?hj ?hle ?hmax
  · rw [hres, List.take_left]
  case hj =>
    rw [List.take_left]
    exact hocc
  case hle => simp
  case hmax =>
    intro i hi hile hocc2
    have hile' : i ≤ W.length + ph.length := by simpa using hile
    have htk : (W ++ ph).take i = W ++ ph.take (i - W.length) := by
      rw [List.take_append_eq_append_take, List.take_of_length_le (by omega)]
    have hlast2 : ((W ++ ph).take i).getLast? = some '=' := by
      rw [getLast?_of_suffix_ne_nil hocc2 (by simp)]
      exact List.getLast?_concat s
    rw [htk, List.getLast?_append] at hlast2
    have hne : ph.take (i - W.length) ≠ [] := by
      intro h0
      have hlen0 : (ph.take (i - W.length)).length = 0 := by
        rw [h0]
        rfl
      rw [List.length_take] at hlen0
      omega
    cases hpl : (ph.take (i - W.length)).getLast? with
    | none => exact hne (List.getLast?_eq_none_iff.1 hpl)
    | some d =>
      rw [hpl] at hlast2
      simp at hlast2
      apply hph
      have hd : d ∈ ph.take (i - W.length) := mem_of_getLast?_eq hpl
      rw [hlast2] at hd
      exact List.mem_of_mem_take hd

/-- Replacing what comes after a displayed `=` that is followed by no
further `=` preserves marker occurrences ending at or before it. -/
theorem hasOcc_prefix_eq {s A P P' : List Char} (hP : '=' ∉ P)
    (h : HasOcc (s ++ ['=']) (A ++ '=' :: P)) : HasOcc (s ++ ['=']) (A ++ '=' :: P') := by
  obtain ⟨a, b, heq, hsa⟩ := hasOcc_concat_iff.1 h
  rcases List.append_eq_append_iff.1 heq with ⟨w, hw1, hw2⟩ | ⟨w, hw1, hw2⟩
  · cases w with
    | nil =>
      rw [List.append_nil] at hw1
      rw [hw1] at hsa
      exact hasOcc_concat_iff.2 ⟨A, P', rfl, hsa⟩
    | cons w0 w' =>
      rw [List.cons_append] at hw2
      injection hw2 with h0 hP2
      exact absurd (hP2 ▸ List.mem_append.2 (Or.inr (List.mem_cons_self '=' b))) hP
  · cases w with
    | nil =>
      rw [List.append_nil] at hw1
      rw [← hw1] at hsa
      exact hasOcc_concat_iff.2 ⟨A, P', rfl, hsa⟩
    | cons w0 w' =>
      rw [List.cons_append] at hw2
      injection hw2 with h0 hb
      refine hasOcc_concat_iff.2 ⟨a, w' ++ '=' :: P', ?_, hsa⟩
      rw [hw1, ← h0]
      simp

/-- Complete case analysis of the JSON/docker stage: it is the identity,
or exactly one of the three rules fires, with the line and the output in
decomposed form. -/
theorem gStage_cases (z : List Char) :
    gStage z = z ∨
    (∃ g1 v t, parseJsonG1 z = some (g1, '"' :: (v ++ '"' :: t)) ∧ '"' ∉ v ∧
      z = g1 ++ ('"' :: (v ++ '"' :: t)) ∧
      gStage z = g1 ++ ('"' :: (valuePH ++ '"' :: t))) ∨
    (∃ g1 d t, parseJsonG1 z = some (g1, d ++ t) ∧ d ≠ [] ∧
      (∀ c ∈ d, isDigitChar c = true) ∧ (∀ c, t.head? = some c → isDigitChar c = false) ∧
      z = g1 ++ (d ++ t) ∧ gStage z = g1 ++ (numberPH ++ t)) ∨
    (∃ w1 w2 S1 S2, parseJsonG1 z = none ∧
      z = w1 ++ '-' :: (w2 ++ '"' :: (S1 ++ '=' :: (S2 ++ ['"']))) ∧
      gStage z = w1 ++ '-' :: (w2 ++ '"' :: (S1 ++ '=' :: (valuePH ++ ['"']))) ∧
      (∀ c ∈ w1, isPySpace c = true) ∧ (∀ c ∈ w2, isPySpace c = true) ∧
      '"' ∉ S1 ∧ '"' ∉ S2 ∧ '=' ∉ S2) := by
  cases hp : parseJsonG1 z with
  | none =>
    have hs := subJsonStr_of_parse_none hp
    have hn := subJsonNum_of_parse_none hp
    rcases subDocker_cases z with hid | ⟨w1, w2, S1, S2, hleq, hout, hw1, hw2, hS1, hS2, hS2e⟩
    · left
      unfold gStage
      rw [hs, hn, hid]
    · right; right; right
      refine ⟨w1, w2, S1, S2, rfl, hleq, ?_, hw1, hw2, hS1, hS2, hS2e⟩
      unfold gStage
      rw [hs, hn, hout]
      simp
  | some pr =>
    obtain ⟨g1, rest⟩ := pr
    obtain ⟨w1, q1, k, q2, w2, w3, hleq, hg, hw1, hq1, hk, hkall, hq2, hw2, hw3, hnr⟩ :=
      parse_split hp
    obtain ⟨c0, T0, hd0, hc0ws, hc0m⟩ :=
      shape_head hw1 hq1 hk hkall (q2 ++ (w2 ++ ':' :: (w3 ++ rest)))
    rw [← hleq] at hd0
    have hdoc : subDocker z = z := subDocker_nofire_head hd0 hc0m
    cases rest with
    | nil =>
      left
      unfold gStage
      rw [subJsonStr_nofire_nil hp, subJsonNum_nofire_nil hp, hdoc]
    | cons cr tr =>
      by_cases hcr : cr = '"'
      · subst hcr
        cases hdq : tr.dropWhile (fun c => c != '"') with
        | nil =>
          left
          unfold gStage
          rw [subJsonStr_nofire_noclose hp hdq, subJsonNum_nofire hp (by decide), hdoc]
        | cons c2 tail =>
          have hc2 : c2 = '"' := by
            have hh := head?_dropWhile_false (p := fun c => c != '"') tr (c := c2)
              (by rw [hdq]; rfl)
            have hh2 : (c2 != '"') = false := hh
            by_contra hne
            rw [bne_iff_ne.2 hne] at hh2
            cases hh2
          subst hc2
          have htr : tr = tr.takeWhile (fun c => c != '"') ++ '"' :: tail := by
            conv_lhs => rw [← List.takeWhile_append_dropWhile
              (p := fun c => c != '"') (l := tr)]
            rw [hdq]
          have hv : ∀ c ∈ tr.takeWhile (fun c => c != '"'), (c != '"') = true := by
            intro c hc
            have hb := List.mem_takeWhile_imp hc
            exact hb
          have hp' : parseJsonG1 z =
              some (g1, '"' :: (tr.takeWhile (fun c => c != '"') ++ '"' :: tail)) := by
            rw [← htr]
            exact hp
          have hstr := subJsonStr_fire hp' hv
          have hvq : '"' ∉ tr.takeWhile (fun c => c != '"') := by
            intro hm
            have hb := hv '"' hm
            simp at hb
          have hO1 : g1 ++ '"' :: valuePH ++ '"' :: tail =
              w1 ++ (q1 ++ (k ++ (q2 ++ (w2 ++ ':' ::
                (w3 ++ ('"' :: (valuePH ++ '"' :: tail))))))) := by
            rw [hg]
            simp [List.append_assoc]
          have hq2' := q2cond_transfer (Y := '"' :: (valuePH ++ '"' :: tail)) hq2
          have hpO1 : parseJsonG1 (g1 ++ '"' :: valuePH ++ '"' :: tail) =
              some (g1, '"' :: (valuePH ++ '"' :: tail)) := by
            rw [hO1, hg]
            exact parse_build hw1 hq1 hk hkall hq2' hw2 hw3
              (by intro c hc; injection hc with hc; rw [← hc]; rfl)
          have hnum1 : subJsonNum (g1 ++ '"' :: valuePH ++ '"' :: tail) =
              g1 ++ '"' :: valuePH ++ '"' :: tail := subJsonNum_nofire hpO1 (by decide)
          obtain ⟨c1, T1, hd1, hc1ws, hc1m⟩ :=
            shape_head hw1 hq1 hk hkall (q2 ++ (w2 ++ ':' ::
              (w3 ++ ('"' :: (valuePH ++ '"' :: tail)))))
          rw [← hO1] at hd1
          have hdoc1 : subDocker (g1 ++ '"' :: valuePH ++ '"' :: tail) =
              g1 ++ '"' :: valuePH ++ '"' :: tail := subDocker_nofire_head hd1 hc1m
          right; left
          refine ⟨g1, tr.takeWhile (fun c => c != '"'), tail,
            congrArg (fun u => some (g1, '"' :: u)) htr, hvq, ?_, ?_⟩
          · conv_lhs => rw [hleq, htr]
            rw [hg]
            simp [List.append_assoc]
          · unfold gStage
            rw [hstr, hnum1, hdoc1]
            simp [List.append_assoc]
      · have hstr := subJsonStr_nofire_rest hp hcr
        cases hdg : isDigitChar cr with
        | false =>
          left
          unfold gStage
          rw [hstr, subJsonNum_nofire hp hdg, hdoc]
        | true =>
          have hne : ((cr :: tr).takeWhile isDigitChar).isEmpty = false := by
            rw [List.takeWhile_cons, hdg]
            rfl
          have hnum := subJsonNum_fire hp hne
          have hO1 : g1 ++ numberPH ++ (cr :: tr).dropWhile isDigitChar =
              w1 ++ (q1 ++ (k ++ (q2 ++ (w2 ++ ':' ::
                (w3 ++ (numberPH ++ (cr :: tr).dropWhile isDigitChar)))))) := by
            rw [hg]
            simp [List.append_assoc]
          obtain ⟨c1, T1, hd1, hc1ws, hc1m⟩ :=
            shape_head hw1 hq1 hk hkall (q2 ++ (w2 ++ ':' ::
              (w3 ++ (numberPH ++ (cr :: tr).dropWhile isDigitChar))))
          rw [← hO1] at hd1
          have hdoc1 : subDocker (g1 ++ numberPH ++ (cr :: tr).dropWhile isDigitChar) =
              g1 ++ numberPH ++ (cr :: tr).dropWhile isDigitChar :=
            subDocker_nofire_head hd1 hc1m
          have hdeq : cr :: tr =
              (cr :: tr).takeWhile isDigitChar ++ (cr :: tr).dropWhile isDigitChar :=
            (List.takeWhile_append_dropWhile _ _).symm
          right; right; left
          refine ⟨g1, (cr :: tr).takeWhile isDigitChar, (cr :: tr).dropWhile isDigitChar,
            congrArg (fun u => some (g1, u)) hdeq, ?_, ?_, ?_, ?_, ?_⟩
          · rw [List.takeWhile_cons, hdg]
            simp
          · intro c hc
            have hb := List.mem_takeWhile_imp hc
            exact hb
          · exact fun c hc => head?_dropWhile_false _ hc
          · rw [hleq, hg, hdeq]
            simp [List.append_assoc]
          · unfold gStage
            rw [hstr, hnum, hdoc1]
            simp [List.append_assoc]

theorem not_hasOcc_nil {s : List Char} {c : Char} : ¬ HasOcc (s ++ [c]) [] := by
  rintro ⟨j, hj, hs⟩
  have hj0 : j = 0 := by simpa using hj
  subst hj0
  have hnil := List.suffix_nil.1 hs
  simp at hnil

/-- The JSON/docker stage never changes whether the environment rule
fires. -/
theorem gStage_envFires (z : List Char) : envFires (gStage z) = envFires z := by
  rcases gStage_cases z with hid |
    ⟨g1, v, t, hp, hvq, hz, hy⟩ |
    ⟨g1, d, t, hp, hdne, hdall, hth, hz, hy⟩ |
    ⟨w1, w2, S1, S2, hp, hz, hy, hw1, hw2, hS1, hS2, hS2e⟩
  · rw [hid]
  · rw [hy]
    conv_rhs => rw [hz]
    rw [show g1 ++ ('"' :: (valuePH ++ '"' :: t)) = (g1 ++ ['"']) ++ (valuePH ++ '"' :: t)
      by simp]
    rw [show g1 ++ ('"' :: (v ++ '"' :: t)) = (g1 ++ ['"']) ++ (v ++ '"' :: t) by simp]
    exact envFires_congr ⟨'"', List.mem_append.2 (Or.inr (List.mem_cons_self '"' [])),
      by decide⟩ _ _
  · obtain ⟨w1, q1, k, q2, w2, w3, -, hg, -, -, -, -, -, -, -, -⟩ := parse_split hp
    have hcolon : ':' ∈ g1 := by
      rw [hg]
      exact List.mem_append.2 (Or.inr (List.mem_cons_self ':' w3))
    rw [hy]
    conv_rhs => rw [hz]
    exact envFires_congr ⟨':', hcolon, by decide⟩ _ _
  · rw [hy]
    conv_rhs => rw [hz]
    rw [show w1 ++ '-' :: (w2 ++ '"' :: (S1 ++ '=' :: (valuePH ++ ['"']))) =
      (w1 ++ ['-']) ++ (w2 ++ '"' :: (S1 ++ '=' :: (valuePH ++ ['"']))) by simp]
    rw [show w1 ++ '-' :: (w2 ++ '"' :: (S1 ++ '=' :: (S2 ++ ['"']))) =
      (w1 ++ ['-']) ++ (w2 ++ '"' :: (S1 ++ '=' :: (S2 ++ ['"']))) by simp]
    exact envFires_congr ⟨'-', List.mem_append.2 (Or.inr (List.mem_cons_self '-' [])),
      by decide⟩ _ _

/-- The JSON/docker stage preserves the absence of leading and trailing
whitespace. -/
theorem gStage_noWs {z : List Char} (hh : NoWsHead z) (hl : NoWsLast z) :
    NoWsHead (gStage z) ∧ NoWsLast (gStage z) := by
  rcases gStage_cases z with hid |
    ⟨g1, v, t, hp, hvq, hz, hy⟩ |
    ⟨g1, d, t, hp, hdne, hdall, hth, hz, hy⟩ |
    ⟨w1, w2, S1, S2, hp, hz, hy, hw1, hw2, hS1, hS2, hS2e⟩
  · rw [hid]
    exact ⟨hh, hl⟩
  · constructor
    · intro c hc
      rw [hy] at hc
      cases hg1 : g1 with
      | nil =>
        rw [hg1] at hc
        injection hc with hc
        rw [← hc]
        rfl
      | cons a g1' =>
        rw [hg1] at hc
        rw [show ((a :: g1') ++ ('"' :: (valuePH ++ '"' :: t))).head? = some a from rfl] at hc
        injection hc with hc
        apply hh
        rw [hz, hg1, show ((a :: g1') ++ ('"' :: (v ++ '"' :: t))).head? = some a from rfl, hc]
    · intro c hc
      rw [hy] at hc
      cases ht : t with
      | nil =>
        rw [ht] at hc
        rw [show g1 ++ ('"' :: (valuePH ++ ['"'])) = (g1 ++ '"' :: valuePH) ++ ['"']
          by simp] at hc
        rw [List.getLast?_concat] at hc
        injection hc with hc
        rw [← hc]
        rfl
      | cons a t' =>
        rw [ht] at hc
        have hty : (a :: t') <:+ g1 ++ ('"' :: (valuePH ++ '"' :: (a :: t'))) :=
          ⟨g1 ++ '"' :: valuePH ++ ['"'], by simp⟩
        rw [getLast?_of_suffix_ne_nil hty (by simp)] at hc
        apply hl
        have htz : (a :: t') <:+ z := by
          rw [hz, ht]
          exact ⟨g1 ++ '"' :: v ++ ['"'], by simp⟩
        rw [getLast?_of_suffix_ne_nil htz (by simp)]
        exact hc
  · constructor
    · intro c hc
      rw [hy] at hc
      cases hg1 : g1 with
      | nil =>
        rw [hg1] at hc
        rw [show (([] : List Char) ++ (numberPH ++ t)).head? = some '<' from rfl] at hc
        injection hc with hc
        rw [← hc]
        rfl
      | cons a g1' =>
        rw [hg1] at hc
        rw [show ((a :: g1') ++ (numberPH ++ t)).head? = some a from rfl] at hc
        injection hc with hc
        apply hh
        rw [hz, hg1, show ((a :: g1') ++ (d ++ t)).head? = some a from rfl, hc]
    · intro c hc
      rw [hy] at hc
      cases ht : t with
      | nil =>
        rw [ht] at hc
        rw [show g1 ++ (numberPH ++ ([] : List Char)) = (g1 ++ ( "<NUMBER".toList)) ++ ['>']
          by simp [show numberPH = ( "<NUMBER".toList) ++ ['>'] from by decide]] at hc
        rw [List.getLast?_concat] at hc
        injection hc with hc
        rw [← hc]
        rfl
      | cons a t' =>
        rw [ht] at hc
        have hty : (a :: t') <:+ g1 ++ (numberPH ++ (a :: t')) :=
          ⟨g1 ++ numberPH, by simp⟩
        rw [getLast?_of_suffix_ne_nil hty (by simp)] at hc
        apply hl
        have htz : (a :: t') <:+ z := by
          rw [hz, ht]
          exact ⟨g1 ++ d, by simp⟩
        rw [getLast?_of_suffix_ne_nil htz (by simp)]
        exact hc
  · constructor
    · intro c hc
      rw [hy] at hc
      cases hw1e : w1 with
      | nil =>
        rw [hw1e] at hc
        injection hc with hc
        rw [← hc]
        rfl
      | cons a w1' =>
        rw [hw1e] at hc
        rw [show ((a :: w1') ++ '-' :: (w2 ++ '"' :: (S1 ++ '=' :: (valuePH ++ ['"'])))).head? =
          some a from rfl] at hc
        injection hc with hc
        apply hh
        rw [hz, hw1e, show ((a :: w1') ++ '-' :: (w2 ++ '"' :: (S1 ++ '=' ::
          (S2 ++ ['"'])))).head? = some a from rfl, hc]
    · intro c hc
      rw [hy] at hc
      rw [show w1 ++ '-' :: (w2 ++ '"' :: (S1 ++ '=' :: (valuePH ++ ['"']))) =
        (w1 ++ '-' :: (w2 ++ '"' :: (S1 ++ '=' :: valuePH))) ++ ['"'] by simp] at hc
      rw [List.getLast?_concat] at hc
      injection hc with hc
      rw [← hc]
      rfl

/-- Marker occurrences in the output of the JSON/docker stage come from
occurrences in its input. -/
theorem gStage_occ {z s : List Char}
    (hsq : '"' ∉ s) (hsl : '<' ∉ s) (hsg : '>' ∉ s)
    (h : HasOcc (s ++ ['=']) (gStage z)) : HasOcc (s ++ ['=']) z := by
  rcases gStage_cases z with hid |
    ⟨g1, v, t, hp, hvq, hz, hy⟩ |
    ⟨g1, d, t, hp, hdne, hdall, hth, hz, hy⟩ |
    ⟨w1, w2, S1, S2, hp, hz, hy, hw1, hw2, hS1, hS2, hS2e⟩
  · rwa [hid] at h
  · rw [hy] at h
    rcases (hasOcc_marker_sep hsq (by decide) g1 (valuePH ++ '"' :: t)).1 h with h1 | h1
    · rw [hz]
      exact hasOcc_append_left h1
    · rcases (hasOcc_marker_sep hsq (by decide) valuePH t).1 h1 with h2 | h2
      · exact absurd h2 (not_hasOcc_of_not_mem (by decide))
      · rw [hz, show g1 ++ ('"' :: (v ++ '"' :: t)) = (g1 ++ '"' :: v ++ ['"']) ++ t by simp]
        exact hasOcc_append_right h2
  · rw [hy, show numberPH ++ t = '<' :: ( "NUMBER>".toList ++ t) from rfl] at h
    rcases (hasOcc_marker_sep hsl (by decide) g1 ( "NUMBER>".toList ++ t)).1 h with h1 | h1
    · rw [hz]
      exact hasOcc_append_left h1
    · rw [show ( "NUMBER>".toList) ++ t = ( "NUMBER".toList) ++ '>' :: t by simp] at h1
      rcases (hasOcc_marker_sep hsg (by decide) ( "NUMBER".toList) t).1 h1 with h2 | h2
      · exact absurd h2 (not_hasOcc_of_not_mem (by decide))
      · rw [hz, show g1 ++ (d ++ t) = (g1 ++ d) ++ t by simp]
        exact hasOcc_append_right h2
  · rw [hy, show w1 ++ '-' :: (w2 ++ '"' :: (S1 ++ '=' :: (valuePH ++ ['"']))) =
      (w1 ++ '-' :: w2) ++ '"' :: (S1 ++ '=' :: (valuePH ++ ['"'])) by simp] at h
    rcases (hasOcc_marker_sep hsq (by decide) (w1 ++ '-' :: w2)
      (S1 ++ '=' :: (valuePH ++ ['"']))).1 h with h1 | h1
    · rw [hz, show w1 ++ '-' :: (w2 ++ '"' :: (S1 ++ '=' :: (S2 ++ ['"']))) =
        (w1 ++ '-' :: w2) ++ '"' :: (S1 ++ '=' :: (S2 ++ ['"'])) by simp]
      exact hasOcc_append_left h1
    · have h1' : HasOcc (s ++ ['=']) ((S1 ++ '=' :: valuePH) ++ '"' :: []) := by
        rw [show (S1 ++ '=' :: valuePH) ++ '"' :: [] = S1 ++ '=' :: (valuePH ++ ['"'])
          by simp]
        exact h1
      rcases (hasOcc_marker_sep hsq (by decide) (S1 ++ '=' :: valuePH) []).1 h1' with h2 | h2
      · have h3 : HasOcc (s ++ ['=']) (S1 ++ '=' :: (S2 ++ ['"'])) :=
          hasOcc_prefix_eq (by decide) h2
        rw [hz, show w1 ++ '-' :: (w2 ++ '"' :: (S1 ++ '=' :: (S2 ++ ['"']))) =
          ((w1 ++ '-' :: w2) ++ ['"']) ++ (S1 ++ '=' :: (S2 ++ ['"'])) by simp]
        exact hasOcc_append_right h3
      · exact absurd h2 not_hasOcc_nil

/-- The JSON/docker stage keeps a trailing placeholder (a quote-free,
digit-free block ending in `>`) and the marker to its left. -/
theorem gStage_tail_ph {z W0 ph s : List Char}
    (hz0 : z = W0 ++ ph) (hm : (s ++ ['=']) <:+ W0)
    (hphq : '"' ∉ ph) (hphd : ∀ c ∈ ph, isDigitChar c = false)
    (hphl : ph.getLast? = some '>')
    (hsq : '"' ∉ s) (hsd : ∀ c ∈ s, isDigitChar c = false) :
    ∃ W', gStage z = W' ++ ph ∧ (s ++ ['=']) <:+ W' := by
  have hphne : ph ≠ [] := by
    intro h0
    rw [h0] at hphl
    cases hphl
  rcases gStage_cases z with hid |
    ⟨g1, v, t, hp, hvq, hz, hy⟩ |
    ⟨g1, d, t, hp, hdne, hdall, hth, hz, hy⟩ |
    ⟨w1, w2, S1, S2, hp, hz, hy, hw1, hw2, hS1, hS2, hS2e⟩
  · exact ⟨W0, by rw [hid, hz0], hm⟩
  · have hphsz : ph <:+ z := hz0 ▸ ⟨W0, rfl⟩
    have hz' : z = (g1 ++ '"' :: v ++ ['"']) ++ t := by
      rw [hz]
      simp
    have hpht : ph <:+ t := by
      rcases suffix_append_cases (hz' ▸ hphsz) with h1 | ⟨p', hp1, hp2⟩
      · exact h1
      · cases hpe : p' with
        | nil =>
          rw [hpe, List.nil_append] at hp1
          rw [hp1]
        | cons e p'' =>
          exfalso
          have hlast : p'.getLast? = some '"' := by
            rw [← getLast?_of_suffix_ne_nil hp2 (by rw [hpe]; simp)]
            exact List.getLast?_concat _
          exact hphq (hp1 ▸ List.mem_append.2 (Or.inl (mem_of_getLast?_eq hlast)))
    obtain ⟨t0, ht0⟩ := hpht
    have hW0 : W0 = (g1 ++ '"' :: v ++ ['"']) ++ t0 :=
      List.append_cancel_right (show W0 ++ ph = ((g1 ++ '"' :: v ++ ['"']) ++ t0) ++ ph by
        rw [← hz0, hz', ← ht0]
        simp)
    refine ⟨(g1 ++ '"' :: valuePH ++ ['"']) ++ t0, ?_, ?_⟩
    · rw [hy, ← ht0]
      simp
    · rw [hW0] at hm
      rcases suffix_append_cases hm with h1 | ⟨m', hm1, hm2⟩
      · exact suffix_append_left h1 _
      · cases hme : m' with
        | nil =>
          rw [hme, List.nil_append] at hm1
          rw [hm1]
          exact suffix_append_left (List.suffix_refl t0) _
        | cons e m'' =>
          exfalso
          have hlast : m'.getLast? = some '"' := by
            rw [← getLast?_of_suffix_ne_nil hm2 (by rw [hme]; simp)]
            exact List.getLast?_concat _
          have hq : '"' ∈ s ++ ['='] := hm1 ▸ List.mem_append.2
            (Or.inl (mem_of_getLast?_eq hlast))
          rcases List.mem_append.1 hq with h | h
          · exact hsq h
          · rcases List.mem_cons.1 h with h | h
            · exact absurd h (by decide)
            · cases h
  · have hphsz : ph <:+ z := hz0 ▸ ⟨W0, rfl⟩
    have hz' : z = (g1 ++ d) ++ t := by
      rw [hz]
      simp
    obtain ⟨e1, hgl, he1⟩ : ∃ e1, (g1 ++ d).getLast? = some e1 ∧ isDigitChar e1 = true := by
      cases hgl : d.getLast? with
      | none => exact absurd (List.getLast?_eq_none_iff.1 hgl) hdne
      | some e1 =>
        refine ⟨e1, ?_, hdall e1 (mem_of_getLast?_eq hgl)⟩
        rw [getLast?_of_suffix_ne_nil (List.suffix_append g1 d) hdne]
        exact hgl
    have hpht : ph <:+ t := by
      rcases suffix_append_cases (hz' ▸ hphsz) with h1 | ⟨p', hp1, hp2⟩
      · exact h1
      · cases hpe : p' with
        | nil =>
          rw [hpe, List.nil_append] at hp1
          rw [hp1]
        | cons e p'' =>
          exfalso
          have hlast : p'.getLast? = some e1 := by
            rw [← getLast?_of_suffix_ne_nil hp2 (by rw [hpe]; simp)]
            exact hgl
          have := hphd e1 (hp1 ▸ List.mem_append.2 (Or.inl (mem_of_getLast?_eq hlast)))
          rw [he1] at this
          cases this
    obtain ⟨t0, ht0⟩ := hpht
    have hW0 : W0 = (g1 ++ d) ++ t0 :=
      List.append_cancel_right (show W0 ++ ph = ((g1 ++ d) ++ t0) ++ ph by
        rw [← hz0, hz', ← ht0]
        simp)
    refine ⟨(g1 ++ numberPH) ++ t0, ?_, ?_⟩
    · rw [hy, ← ht0]
      simp
    · rw [hW0] at hm
      rcases suffix_append_cases hm with h1 | ⟨m', hm1, hm2⟩
      · exact suffix_append_left h1 _
      · cases hme : m' with
        | nil =>
          rw [hme, List.nil_append] at hm1
          rw [hm1]
          exact suffix_append_left (List.suffix_refl t0) _
        | cons e m'' =>
          exfalso
          have hlast : m'.getLast? = some e1 := by
            rw [← getLast?_of_suffix_ne_nil hm2 (by rw [hme]; simp)]
            exact hgl
          have hq : e1 ∈ s ++ ['='] := hm1 ▸ List.mem_append.2
            (Or.inl (mem_of_getLast?_eq hlast))
          rcases List.mem_append.1 hq with h | h
          · have := hsd e1 h
            rw [he1] at this
            cases this
          · rcases List.mem_cons.1 h with h | h
            · rw [h] at he1
              cases he1
            · cases h
  · exfalso
    have h1 : z.getLast? = some '"' := by
      rw [hz, show w1 ++ '-' :: (w2 ++ '"' :: (S1 ++ '=' :: (S2 ++ ['"']))) =
        (w1 ++ '-' :: (w2 ++ '"' :: (S1 ++ '=' :: S2))) ++ ['"'] by simp]
      exact List.getLast?_concat _
    have h2 : z.getLast? = some '>' := by
      rw [hz0, getLast?_of_suffix_ne_nil (⟨W0, rfl⟩ : ph <:+ W0 ++ ph) hphne, hphl]
    rw [h1] at h2
    injection h2 with h2
    exact absurd h2 (by decide)

theorem noWsHead_take {l : List Char} (h : NoWsHead l) (j : Nat) : NoWsHead (l.take j) := by
  intro c hc
  apply h
  cases l with
  | nil =>
    rw [List.take_nil] at hc
    cases hc
  | cons a l' =>
    cases j with
    | zero => cases hc
    | succ j' => exact hc

theorem noWsHead_append {u v : List Char} (hu : NoWsHead u) (hne : u ≠ []) :
    NoWsHead (u ++ v) := by
  intro c hc
  rw [head?_append_left hne] at hc
  exact hu c hc

theorem noWsLast_concat_ph {u ph : List Char} (h : ph.getLast? = some '>') :
    NoWsLast (u ++ ph) := by
  intro c hc
  have hne : ph ≠ [] := by
    intro h0
    rw [h0] at h
    cases h
  rw [getLast?_of_suffix_ne_nil (List.suffix_append u ph) hne, h] at hc
  injection hc with hc
  rw [← hc]
  rfl

/-- No marker occurrence appears in a chop result `W ++ ph` unless it was
already in `W`. -/
theorem no_occ_chop {sY ph W b : List Char} (hph : ph = '<' :: b) (hb : '=' ∉ b)
    (hY : '<' ∉ sY) (hW : ¬ HasOcc (sY ++ ['=']) W) :
    ¬ HasOcc (sY ++ ['=']) (W ++ ph) := by
  rw [hph]
  intro h
  rcases (hasOcc_marker_sep hY (by decide) W b).1 h with h1 | h1
  · exact hW h1
  · exact not_hasOcc_of_not_mem hb h1

/-- Case B of the amended idempotence claim with no marker occurrence at
all: the whole pipeline beyond the strip reduces to the JSON/docker
stage. -/
theorem caseB_zero {x0 : List Char} (hx0h : NoWsHead x0) (hx0l : NoWsLast x0)
    (henv : envFires x0 = false)
    (hS : occEnds mSECRET x0 = []) (hK : occEnds mKEY x0 = [])
    (hT : occEnds mTOKEN x0 = []) (hP : occEnds mPASSWORD x0 = []) :
    normalize_line (normalize_core x0) = normalize_core x0 := by
  have hfz : fStage x0 = x0 := by
    unfold fStage
    rw [subEnv_of_not_fires henv, subTail_none hS, subTail_none hK,
      subTail_none hT, subTail_none hP]
  obtain ⟨hyh, hyl⟩ := gStage_noWs hx0h hx0l
  have hyenv : envFires (gStage x0) = false := by
    rw [gStage_envFires]
    exact henv
  have hS2 : ¬ HasOcc (bSECRET ++ ['=']) (gStage x0) := by
    intro h
    exact (occEnds_eq_nil_iff.1 hS)
      (by rw [mSECRET_eq]; exact gStage_occ (by decide) (by decide) (by decide) h)
  have hK2 : ¬ HasOcc (bKEY ++ ['=']) (gStage x0) := by
    intro h
    exact (occEnds_eq_nil_iff.1 hK)
      (by rw [mKEY_eq]; exact gStage_occ (by decide) (by decide) (by decide) h)
  have hT2 : ¬ HasOcc (bTOKEN ++ ['=']) (gStage x0) := by
    intro h
    exact (occEnds_eq_nil_iff.1 hT)
      (by rw [mTOKEN_eq]; exact gStage_occ (by decide) (by decide) (by decide) h)
  have hP2 : ¬ HasOcc (bPASSWORD ++ ['=']) (gStage x0) := by
    intro h
    exact (occEnds_eq_nil_iff.1 hP)
      (by rw [mPASSWORD_eq]; exact gStage_occ (by decide) (by decide) (by decide) h)
  have hfy : fStage (gStage x0) = gStage x0 := by
    unfold fStage
    rw [subEnv_of_not_fires hyenv, mSECRET_eq, subTail_of_not_occ hS2,
      mKEY_eq, subTail_of_not_occ hK2, mTOKEN_eq, subTail_of_not_occ hT2,
      mPASSWORD_eq, subTail_of_not_occ hP2]
  rw [normalize_core_fg x0, hfz, normalize_line_eq_core,
    strip_eq_self hyh hyl, normalize_core_fg, hfy]
  exact gStage_idem x0

/-- Case B with exactly one marker occurrence: the suffix rule chops the
line after that occurrence and appends the placeholder; a second pass
leaves the result unchanged. -/
theorem caseB_one {x0 s ph : List Char} {j : Nat}
    (hx0h : NoWsHead x0) (henv : envFires x0 = false)
    (hkind : (s, ph) = (bSECRET, secretPH) ∨ (s, ph) = (bKEY, keyPH) ∨
      (s, ph) = (bTOKEN, tokenPH) ∨ (s, ph) = (bPASSWORD, passwordPH))
    (hfz : fStage x0 = x0.take j ++ ph)
    (hsfx : (s ++ ['=']) <:+ x0.take j)
    (hno : ∀ s2 ph2, ((s2, ph2) = (bSECRET, secretPH) ∨ (s2, ph2) = (bKEY, keyPH) ∨
      (s2, ph2) = (bTOKEN, tokenPH) ∨ (s2, ph2) = (bPASSWORD, passwordPH)) →
      ¬ ((s2, ph2) = (s, ph)) → ¬ HasOcc (s2 ++ ['=']) (x0.take j ++ ph)) :
    normalize_line (normalize_core x0) = normalize_core x0 := by
  obtain ⟨hsq, hsl, hsg, hsd, hphq, hphd, hphl, hphe⟩ : '"' ∉ s ∧ '<' ∉ s ∧ '>' ∉ s ∧
      (∀ c ∈ s, isDigitChar c = false) ∧ '"' ∉ ph ∧ (∀ c ∈ ph, isDigitChar c = false) ∧
      ph.getLast? = some '>' ∧ '=' ∉ ph := by
    rcases hkind with h | h | h | h <;>
      (injection h with h1 h2; subst h1; subst h2;
        exact ⟨by decide, by decide, by decide, by decide, by decide, by decide,
          by decide, by decide⟩)
  have htjne : x0.take j ≠ [] := by
    intro h0
    rw [h0] at hsfx
    have hnil := List.suffix_nil.1 hsfx
    simp at hnil
  have hzh : NoWsHead (x0.take j ++ ph) := noWsHead_append (noWsHead_take hx0h j) htjne
  have hzl : NoWsLast (x0.take j ++ ph) := noWsLast_concat_ph hphl
  obtain ⟨hyh, hyl⟩ := gStage_noWs hzh hzl
  have hzenv : envFires (x0.take j ++ ph) = false := by
    have hmemeq : '=' ∈ x0.take j := by
      obtain ⟨u, hu⟩ := hsfx
      rw [← hu]
      exact List.mem_append.2 (Or.inr (List.mem_append.2
        (Or.inr (List.mem_cons_self '=' []))))
    have hw : ∃ c ∈ x0.take j, isEnvKeyChar c = false := ⟨'=', hmemeq, by decide⟩
    rw [envFires_congr hw ph (x0.drop j), List.take_append_drop]
    exact henv
  have hyenv : envFires (gStage (x0.take j ++ ph)) = false := by
    rw [gStage_envFires]
    exact hzenv
  obtain ⟨W', hyW, hmW⟩ := gStage_tail_ph rfl hsfx hphq hphd hphl hsq hsd
  have hfixX : subTail (s ++ ['=']) ph (gStage (x0.take j ++ ph)) =
      gStage (x0.take j ++ ph) := by
    rw [hyW]
    exact subTail_fixpoint hmW hphe
  have hfix : ∀ s2 ph2, ((s2, ph2) = (bSECRET, secretPH) ∨ (s2, ph2) = (bKEY, keyPH) ∨
      (s2, ph2) = (bTOKEN, tokenPH) ∨ (s2, ph2) = (bPASSWORD, passwordPH)) →
      subTail (s2 ++ ['=']) ph2 (gStage (x0.take j ++ ph)) =
        gStage (x0.take j ++ ph) := by
    intro s2 ph2 hk2
    by_cases he : (s2, ph2) = (s, ph)
    · injection he with h1 h2
      subst h1
      subst h2
      exact hfixX
    · obtain ⟨hsq2, hsl2, hsg2⟩ : '"' ∉ s2 ∧ '<' ∉ s2 ∧ '>' ∉ s2 := by
        rcases hk2 with h | h | h | h <;>
          (injection h with h1 h2; subst h1; subst h2;
            exact ⟨by decide, by decide, by decide⟩)
      exact subTail_of_not_occ
        (fun hocc => hno s2 ph2 hk2 he (gStage_occ hsq2 hsl2 hsg2 hocc))
  have hfy : fStage (gStage (x0.take j ++ ph)) = gStage (x0.take j ++ ph) := by
    unfold fStage
    rw [subEnv_of_not_fires hyenv]
    rw [mSECRET_eq, hfix bSECRET secretPH (Or.inl rfl)]
    rw [mKEY_eq, hfix bKEY keyPH (Or.inr (Or.inl rfl))]
    rw [mTOKEN_eq, hfix bTOKEN tokenPH (Or.inr (Or.inr (Or.inl rfl)))]
    rw [mPASSWORD_eq, hfix bPASSWORD passwordPH (Or.inr (Or.inr (Or.inr rfl)))]
  rw [normalize_core_fg x0, hfz, normalize_line_eq_core,
    strip_eq_self hyh hyl, normalize_core_fg, hfy]
  exact gStage_idem (x0.take j ++ ph)

/-- Case B of the amended idempotence claim: the environment rule does not
fire and at most one marker occurrence exists. -/
theorem caseB_main {x0 : List Char} (hx0h : NoWsHead x0) (hx0l : NoWsLast x0)
    (henv : envFires x0 = false) (hmc : markerCount x0 ≤ 1) :
    normalize_line (normalize_core x0) = normalize_core x0 := by
  have hsingle : ∀ {L : List Nat}, L ≠ [] → L.length ≤ 1 → ∃ j, L = [j] := by
    intro L hne hle
    cases L with
    | nil => exact absurd rfl hne
    | cons a L' =>
      cases L' with
      | nil => exact ⟨a, rfl⟩
      | cons b L'' => simp at hle
  have hpos : ∀ {L : List Nat}, L ≠ [] → 1 ≤ L.length := by
    intro L hne
    cases L with
    | nil => exact absurd rfl hne
    | cons a L' => simp
  unfold markerCount at hmc
  by_cases hS : occEnds mSECRET x0 = []
  · by_cases hK : occEnds mKEY x0 = []
    · by_cases hT : occEnds mTOKEN x0 = []
      · by_cases hP : occEnds mPASSWORD x0 = []
        · exact caseB_zero hx0h hx0l henv hS hK hT hP
        · obtain ⟨jP, hjP⟩ := hsingle hP (by rw [hS, hK, hT] at hmc; simpa using hmc)
          have hjmem : jP ∈ occEnds mPASSWORD x0 := by
            rw [hjP]
            exact List.mem_cons_self jP []
          have hsfx : (bPASSWORD ++ ['=']) <:+ x0.take jP := by
            rw [← mPASSWORD_eq]
            exact List.isSuffixOf_iff_suffix.1 (mem_occEnds.1 hjmem).2
          have hno : ∀ s2 ph2, ((s2, ph2) = (bSECRET, secretPH) ∨
              (s2, ph2) = (bKEY, keyPH) ∨ (s2, ph2) = (bTOKEN, tokenPH) ∨
              (s2, ph2) = (bPASSWORD, passwordPH)) →
              ¬ ((s2, ph2) = (bPASSWORD, passwordPH)) →
              ¬ HasOcc (s2 ++ ['=']) (x0.take jP ++ passwordPH) := by
            intro s2 ph2 hk2 hne2
            rcases hk2 with h | h | h | h
            · injection h with h1 h2
              subst h1
              exact no_occ_chop (show passwordPH = '<' :: ( "PASSWORD>".toList) from
                by decide) (by decide) (by decide)
                (fun hh => (occEnds_eq_nil_iff.1 hS)
                  (by rw [mSECRET_eq]; exact hasOcc_of_take hh))
            · injection h with h1 h2
              subst h1
              exact no_occ_chop (show passwordPH = '<' :: ( "PASSWORD>".toList) from
                by decide) (by decide) (by decide)
                (fun hh => (occEnds_eq_nil_iff.1 hK)
                  (by rw [mKEY_eq]; exact hasOcc_of_take hh))
            · injection h with h1 h2
              subst h1
              exact no_occ_chop (show passwordPH = '<' :: ( "PASSWORD>".toList) from
                by decide) (by decide) (by decide)
                (fun hh => (occEnds_eq_nil_iff.1 hT)
                  (by rw [mTOKEN_eq]; exact hasOcc_of_take hh))
            · exact absurd h hne2
          have hfz : fStage x0 = x0.take jP ++ passwordPH := by
            unfold fStage
            rw [subEnv_of_not_fires henv, subTail_none hS, subTail_none hK,
              subTail_none hT, subTail_single hjP]
          exact caseB_one hx0h henv (Or.inr (Or.inr (Or.inr rfl))) hfz hsfx hno
      · have hP : occEnds mPASSWORD x0 = [] := by
          have h1 := hpos hT
          rw [hS, hK] at hmc
          simp at hmc
          exact List.length_eq_zero.1 (by omega)
        obtain ⟨jT, hjT⟩ := hsingle hT (by rw [hS, hK, hP] at hmc; simpa using hmc)
        have hjmem : jT ∈ occEnds mTOKEN x0 := by
          rw [hjT]
          exact List.mem_cons_self jT []
        have hsfx : (bTOKEN ++ ['=']) <:+ x0.take jT := by
          rw [← mTOKEN_eq]
          exact List.isSuffixOf_iff_suffix.1 (mem_occEnds.1 hjmem).2
        have hno : ∀ s2 ph2, ((s2, ph2) = (bSECRET, secretPH) ∨
            (s2, ph2) = (bKEY, keyPH) ∨ (s2, ph2) = (bTOKEN, tokenPH) ∨
            (s2, ph2) = (bPASSWORD, passwordPH)) →
            ¬ ((s2, ph2) = (bTOKEN, tokenPH)) →
            ¬ HasOcc (s2 ++ ['=']) (x0.take jT ++ tokenPH) := by
          intro s2 ph2 hk2 hne2
          rcases hk2 with h | h | h | h
          · injection h with h1 h2
            subst h1
            exact no_occ_chop (show tokenPH = '<' :: ( "TOKEN>".toList) from by decide)
              (by decide) (by decide)
              (fun hh => (occEnds_eq_nil_iff.1 hS)
                (by rw [mSECRET_eq]; exact hasOcc_of_take hh))
          · injection h with h1 h2
            subst h1
            exact no_occ_chop (show tokenPH = '<' :: ( "TOKEN>".toList) from by decide)
              (by decide) (by decide)
              (fun hh => (occEnds_eq_nil_iff.1 hK)
                (by rw [mKEY_eq]; exact hasOcc_of_take hh))
          · exact absurd h hne2
          · injection h with h1 h2
            subst h1
            exact no_occ_chop (show tokenPH = '<' :: ( "TOKEN>".toList) from by decide)
              (by decide) (by decide)
              (fun hh => (occEnds_eq_nil_iff.1 hP)
                (by rw [mPASSWORD_eq]; exact hasOcc_of_take hh))
        have hfz : fStage x0 = x0.take jT ++ tokenPH := by
          unfold fStage
          rw [subEnv_of_not_fires henv, subTail_none hS, subTail_none hK,
            subTail_single hjT, mPASSWORD_eq,
            subTail_of_not_occ (hno bPASSWORD passwordPH
              (Or.inr (Or.inr (Or.inr rfl))) (by decide))]
        exact caseB_one hx0h henv (Or.inr (Or.inr (Or.inl rfl))) hfz hsfx hno
    · have h1 := hpos hK
      have hT : occEnds mTOKEN x0 = [] := by
        rw [hS] at hmc
        simp at hmc
        exact List.length_eq_zero.1 (by omega)
      have hP : occEnds mPASSWORD x0 = [] := by
        rw [hS] at hmc
        simp at hmc
        exact List.length_eq_zero.1 (by omega)
      obtain ⟨jK, hjK⟩ := hsingle hK (by rw [hS, hT, hP] at hmc; simpa using hmc)
      have hjmem : jK ∈ occEnds mKEY x0 := by
        rw [hjK]
        exact List.mem_cons_self jK []
      have hsfx : (bKEY ++ ['=']) <:+ x0.take jK := by
        rw [← mKEY_eq]
        exact List.isSuffixOf_iff_suffix.1 (mem_occEnds.1 hjmem).2
      have hno : ∀ s2 ph2, ((s2, ph2) = (bSECRET, secretPH) ∨
          (s2, ph2) = (bKEY, keyPH) ∨ (s2, ph2) = (bTOKEN, tokenPH) ∨
          (s2, ph2) = (bPASSWORD, passwordPH)) →
          ¬ ((s2, ph2) = (bKEY, keyPH)) →
          ¬ HasOcc (s2 ++ ['=']) (x0.take jK ++ keyPH) := by
        intro s2 ph2 hk2 hne2
        rcases hk2 with h | h | h | h
        · injection h with h1 h2
          subst h1
          exact no_occ_chop (show keyPH = '<' :: ( "KEY>".toList) from by decide)
            (by decide) (by decide)
            (fun hh => (occEnds_eq_nil_iff.1 hS)
              (by rw [mSECRET_eq]; exact hasOcc_of_take hh))
        · exact absurd h hne2
        · injection h with h1 h2
          subst h1
          exact no_occ_chop (show keyPH = '<' :: ( "KEY>".toList) from by decide)
            (by decide) (by decide)
            (fun hh => (occEnds_eq_nil_iff.1 hT)
              (by rw [mTOKEN_eq]; exact hasOcc_of_take hh))
        · injection h with h1 h2
          subst h1
          exact no_occ_chop (show keyPH = '<' :: ( "KEY>".toList) from by decide)
            (by decide) (by decide)
            (fun hh => (occEnds_eq_nil_iff.1 hP)
              (by rw [mPASSWORD_eq]; exact hasOcc_of_take hh))
      have hfz : fStage x0 = x0.take jK ++ keyPH := by
        unfold fStage
        rw [subEnv_of_not_fires henv, subTail_none hS, subTail_single hjK,
          mTOKEN_eq,
          subTail_of_not_occ (hno bTOKEN tokenPH
            (Or.inr (Or.inr (Or.inl rfl))) (by decide)),
          mPASSWORD_eq,
          subTail_of_not_occ (hno bPASSWORD passwordPH
            (Or.inr (Or.inr (Or.inr rfl))) (by decide))]
      exact caseB_one hx0h henv (Or.inr (Or.inl rfl)) hfz hsfx hno
  · have h1 := hpos hS
    have hK : occEnds mKEY x0 = [] := List.length_eq_zero.1 (by omega)
    have hT : occEnds mTOKEN x0 = [] := List.length_eq_zero.1 (by omega)
    have hP : occEnds mPASSWORD x0 = [] := List.length_eq_zero.1 (by omega)
    obtain ⟨jS, hjS⟩ := hsingle hS (by rw [hK, hT, hP] at hmc; simpa using hmc)
    have hjmem : jS ∈ occEnds mSECRET x0 := by
      rw [hjS]
      exact List.mem_cons_self jS []
    have hsfx : (bSECRET ++ ['=']) <:+ x0.take jS := by
      rw [← mSECRET_eq]
      exact List.isSuffixOf_iff_suffix.1 (mem_occEnds.1 hjmem).2
    have hno : ∀ s2 ph2, ((s2, ph2) = (bSECRET, secretPH) ∨
        (s2, ph2) = (bKEY, keyPH) ∨ (s2, ph2) = (bTOKEN, tokenPH) ∨
        (s2, ph2) = (bPASSWORD, passwordPH)) →
        ¬ ((s2, ph2) = (bSECRET, secretPH)) →
        ¬ HasOcc (s2 ++ ['=']) (x0.take jS ++ secretPH) := by
      intro s2 ph2 hk2 hne2
      rcases hk2 with h | h | h | h
      · exact absurd h hne2
      · injection h with h1 h2
        subst h1
        exact no_occ_chop (show secretPH = '<' :: ( "SECRET>".toList) from by decide)
          (by decide) (by decide)
          (fun hh => (occEnds_eq_nil_iff.1 hK)
            (by rw [mKEY_eq]; exact hasOcc_of_take hh))
      · injection h with h1 h2
        subst h1
        exact no_occ_chop (show secretPH = '<' :: ( "SECRET>".toList) from by decide)
          (by decide) (by decide)
          (fun hh => (occEnds_eq_nil_iff.1 hT)
            (by rw [mTOKEN_eq]; exact hasOcc_of_take hh))
      · injection h with h1 h2
        subst h1
        exact no_occ_chop (show secretPH = '<' :: ( "SECRET>".toList) from by decide)
          (by decide) (by decide)
          (fun hh => (occEnds_eq_nil_iff.1 hP)
            (by rw [mPASSWORD_eq]; exact hasOcc_of_take hh))
    have hfz : fStage x0 = x0.take jS ++ secretPH := by
      unfold fStage
      rw [subEnv_of_not_fires henv, subTail_single hjS,
        mKEY_eq,
        subTail_of_not_occ (hno bKEY keyPH (Or.inr (Or.inl rfl)) (by decide)),
        mTOKEN_eq,
        subTail_of_not_occ (hno bTOKEN tokenPH
          (Or.inr (Or.inr (Or.inl rfl))) (by decide)),
        mPASSWORD_eq,
        subTail_of_not_occ (hno bPASSWORD passwordPH
          (Or.inr (Or.inr (Or.inr rfl))) (by decide))]
    exact caseB_one hx0h henv (Or.inl rfl) hfz hsfx hno

/-- Claim C5 (amended): normalization is idempotent for every line whose
stripped form contains at most one occurrence in total of the marker
substrings `_SECRET=`, `_KEY=`, `_TOKEN=`, `_PASSWORD=`; on such lines a
second application of `normalize_line` returns its input unchanged. -/
theorem C5_amended (l : List Char) (hmc : markerCount (strip l) ≤ 1) :
    normalize_line (normalize_line l) = normalize_line l := by
  rw [normalize_line_eq_core l]
  cases henv : envFires (strip l) with
  | true =>
    obtain ⟨hsub, r0, hr0⟩ := subEnv_of_fires henv
    have hkne : (strip l).takeWhile isEnvKeyChar ≠ [] := by
      unfold envFires at henv
      rw [Bool.and_eq_true] at henv
      intro h0
      rw [h0] at henv
      simp at henv
    have hall : ∀ c ∈ (strip l).takeWhile isEnvKeyChar, isEnvKeyChar c = true :=
      fun c hc => List.mem_takeWhile_imp hc
    have hx0eq : strip l = (strip l).takeWhile isEnvKeyChar ++ '=' :: r0 := by
      conv_lhs => rw [← List.takeWhile_append_dropWhile (p := isEnvKeyChar) (l := strip l)]
      rw [hr0]
    have hcore : normalize_core (strip l) =
        (strip l).takeWhile isEnvKeyChar ++ '=' :: kindPH ((strip l).takeWhile isEnvKeyChar) := by
      conv_lhs => rw [hx0eq]
      exact core_env_shape hkne hall
    rw [hcore]
    exact normalize_env_idem hkne hall
  | false =>
    exact caseB_main (noWsHead_strip l) (noWsLast_strip l) henv hmc

/-- Witness for the amended C5 at the concrete line `PORT=8080`. -/
theorem C5_amended_witness :
    normalize_line (normalize_line ( "PORT=8080".toList)) =
      normalize_line ( "PORT=8080".toList) :=
  C5_amended ( "PORT=8080".toList) (by decide)
